import Mathlib

/-!
Verification of the file-combine extension's file selection and ignore-resolution
engine, shallowly embedded from the TypeScript source (`src/fileProcessor.ts`,
`src/treeView.ts`, `src/types.ts`).

Modelling conventions:
* An absolute path inside the workspace is represented by the list of its
  components below the workspace root (`Path := List String`); the workspace
  root itself is `[]`.  `vscode.workspace.asRelativePath` is therefore the
  identity on components, and its string form is `relString` (POSIX joining
  with "/").  On a real file system distinct absolute paths have distinct
  relative strings, so recording paths as component lists is faithful.
* The `ignore` npm library, the `istextorbinary` classifier and the byte-size
  formatter are external dependencies; they are modelled as opaque function
  parameters (`ignores`, `isText`, `formatFileSize`) so every theorem holds
  for all of their behaviours.
* JavaScript string builtins used by the source (`trim`, `split('\n')`,
  `startsWith`, `localeCompare`) are embedded explicitly (`jsTrim`,
  `String.splitOn "\n"`, `String.startsWith`, `localeCompare` below).
* The cooperative `CancellationToken` is modelled as a boolean stream indexed
  by the number of `isCancellationRequested` checks performed so far; a real
  VS Code token is monotone (once cancelled it stays cancelled).
-/

namespace FileCombine

/-- A workspace path as its list of components below the workspace root. -/
abbrev Path := List String

/-- POSIX joining of components: the workspace-relative string of a path,
as produced by `vscode.workspace.asRelativePath` / `path.posix.sep` joining
in `collectFiles`. -/
def relString (p : Path) : String := String.intercalate "/" p

/-- Embedding of JavaScript `String.prototype.trim` (used at
`fileProcessor.ts:309`): drop whitespace from both ends. -/
def jsTrim (s : String) : String :=
  String.mk (((s.toList.dropWhile Char.isWhitespace).reverse.dropWhile
    Char.isWhitespace).reverse)

/-- Split a character list at every occurrence of a separator (keeping empty
segments), as JavaScript `String.prototype.split` does with a one-character
separator. -/
def splitChar (sep : Char) : List Char → List (List Char)
  | [] => [[]]
  | c :: cs =>
    let r := splitChar sep cs
    if c == sep then [] :: r
    else
      match r with
      | [] => [[c]]
      | h :: t => (c :: h) :: t

/-- Embedding of JavaScript `String.prototype.split` with a one-character
separator. -/
def jsSplit (sep : Char) (s : String) : List String :=
  (splitChar sep s.toList).map String.mk

/-- Embedding of JavaScript `String.prototype.startsWith`. -/
def jsStartsWith (s pre : String) : Bool :=
  pre.toList.isPrefixOf s.toList

/-- Embedding of the pattern-line filter of `getAllRelevantIgnoreFiles`
(`fileProcessor.ts:309`):
`contentBytes.toString().split('\n').filter(p => p.trim() !== '' && !p.startsWith('#'))`. -/
def parsePatterns (content : String) : List String :=
  (jsSplit '\n' content).filter (fun p => jsTrim p != "" && !(jsStartsWith p "#"))

/-- Iterate `path.dirname` (`List.dropLast` on components) `n` times, listing
every directory seen.  With `n = d.length` this is the loop of
`getAllRelevantIgnoreFiles` and of the ignore check of `collectFiles`, which
start at `d`, step with `path.dirname`, and stop after handling the workspace
root (each `dirname` step removes exactly one component). -/
def upChain : Nat → Path → List Path
  | 0, d => [d]
  | n + 1, d => d :: upChain n d.dropLast

/-- The upward chain of directories from `d` to (and including) the workspace
root `[]`, deepest first: exactly the directories `currentDir` ranges over in
the `while` loops of `fileProcessor.ts` (lines 249-266 and 298-323). -/
def ancestorChain (d : Path) : List Path := upChain d.length d

/-- Configuration of one run: the compiled per-directory ignore matchers
(`compiledIgnores : CompiledIgnoreMap`), the `ignore` library match function,
the compiled global excluder, the `istextorbinary` classifier, the
cancellation token stream and the size formatter. -/
structure Cfg where
  compiledIgnores : Path → Option (List String)
  ignores : List String → String → Bool
  globalExcluder : String → Bool
  isText : String → String → Bool
  formatFileSize : Nat → String
  token : Nat → Bool

/-- Embedding of `shouldExcludeFile` (`fileProcessor.ts:21`). -/
def shouldExcludeFile (globalExcluder : String → Bool) (relativePath : String) : Bool :=
  globalExcluder relativePath

/-- One level of the ignore check in `collectFiles` (`fileProcessor.ts:250-260`):
if a compiled matcher exists for directory `d`, check the target path made
relative to `d` in POSIX form; an empty relative path is skipped
(`if (posixPath && ig.ignores(posixPath))`). -/
def levelMatches (C : Cfg) (target : Path) (d : Path) : Bool :=
  match C.compiledIgnores d with
  | some pats =>
    let posixPath := relString (target.drop d.length)
    (posixPath != "") && C.ignores pats posixPath
  | none => false

/-- The body of the `while` loop of the ignore check in `collectFiles`
(`fileProcessor.ts:249-266`), as a walk over an explicit list of directories;
the loop visits exactly `ancestorChain startDir` in order. -/
def walkLoop (C : Cfg) (target : Path) : List Path → Option Path
  | [] => none
  | d :: rest => if levelMatches C target d then some d else walkLoop C target rest

/-- The hierarchical ignore check of `collectFiles`: walk up from `startDir`
toward the workspace root, returning the first (deepest) directory whose
compiled matcher matches the target, or `none`. -/
def ignoreWalk (C : Cfg) (target : Path) (startDir : Path) : Option Path :=
  walkLoop C target (ancestorChain startDir)

/-! ### File-system model

The workspace is a finite tree; `vscode.workspace.fs.stat/readDirectory/readFile`
become total lookups in it.  A mutual inductive keeps all recursion structural. -/

mutual
inductive FSNode where
  | file (content : String)
  | dir (children : FSList)
inductive FSList where
  | nil
  | cons (name : String) (node : FSNode) (rest : FSList)
end

/-- The names of the entries of a directory listing. -/
def FSList.names : FSList → List String
  | .nil => []
  | .cons name _ rest => name :: rest.names

/-- The directory entries of a listing as name–node pairs. -/
def FSList.entries : FSList → List (String × FSNode)
  | .nil => []
  | .cons name node rest => (name, node) :: rest.entries

/-- Boolean no-duplicates check on a list of names. -/
def nodupB : List String → Bool
  | [] => true
  | x :: xs => !(xs.contains x) && nodupB xs

mutual
/-- Well-formedness of a modelled file system: sibling names are distinct at
every directory, as on a real file system. -/
def wfNode : FSNode → Bool
  | .file _ => true
  | .dir cs => nodupB cs.names && wfList cs
def wfList : FSList → Bool
  | .nil => true
  | .cons _ node rest => wfNode node && wfList rest
end

/-- Look up a directory entry by name. -/
def findChild : FSList → String → Option FSNode
  | .nil, _ => none
  | .cons name node rest, target =>
    if name == target then some node else findChild rest target

/-- Resolve a path from a node: the model of `vscode.workspace.fs.stat`
(`none` is the `FileNotFound` error). -/
def resolveNode (n : FSNode) : Path → Option FSNode
  | [] => some n
  | name :: rest =>
    match n with
    | .file _ => none
    | .dir cs =>
      match findChild cs name with
      | some c => resolveNode c rest
      | none => none

/-! ### Ignore-file discovery (`getAllRelevantIgnoreFiles`, `fileProcessor.ts:285-325`)
and compilation of the per-directory matchers (`fileProcessor.ts:46-78`). -/

/-- The ignore-file entries physically present in directory `d`: for each of
the two well-known names `.gitignore` then `.filecombine`
(`fileProcessor.ts:300`), stat + read + parse; a missing file contributes
nothing, and a read failure (e.g. the name resolves to a directory) is
logged and skipped. -/
def ignoreEntriesAt (fs : FSNode) (d : Path) : List (Path × List String) :=
  [".gitignore", ".filecombine"].filterMap (fun name =>
    match resolveNode fs (d ++ [name]) with
    | some (.file content) => some (d ++ [name], parsePatterns content)
    | _ => none)

/-- Embedding of `getAllRelevantIgnoreFiles`: walk up from `startDir` to the
workspace root, collecting the ignore files found at each level.  The
process-wide cache (`ignoreFileCache`) only memoises these pure reads within
one invocation, so it is not represented. -/
def getAllRelevantIgnoreFiles (fs : FSNode) (startDir : Path) : List (Path × List String) :=
  (ancestorChain startDir).flatMap (ignoreEntriesAt fs)

/-- The starting directory derived from one selected root
(`fileProcessor.ts:52`): the root itself if it is a directory, its parent if
it is a file; a root that fails to stat is skipped. -/
def startDirOf (fs : FSNode) (r : Path) : Option Path :=
  match resolveNode fs r with
  | some (.dir _) => some r
  | some (.file _) => some r.dropLast
  | none => none

/-- The insertion-ordered deduplicated start directories
(`uniqueStartDirs`, `fileProcessor.ts:47-57`). -/
def uniqueStartDirs (fs : FSNode) (uris : List Path) : List Path :=
  uris.foldl (fun acc r =>
    match startDirOf fs r with
    | some d => if d ∈ acc then acc else acc ++ [d]
    | none => acc) []

/-- Push an entry unless an entry with the same file path is already present
(the `foundIgnoreFiles` set, `fileProcessor.ts:59-68`). -/
def dedupPush (acc : List (Path × List String)) (e : Path × List String) :
    List (Path × List String) :=
  if e.1 ∈ acc.map Prod.fst then acc else acc ++ [e]

/-- `allRelevantIgnoreFiles` of `combineFiles`: chain entries of every unique
start directory, deduplicated by ignore-file path in discovery order. -/
def allRelevantIgnoreFiles (fs : FSNode) (uris : List Path) : List (Path × List String) :=
  (uniqueStartDirs fs uris).foldl
    (fun acc dir => (getAllRelevantIgnoreFiles fs dir).foldl dedupPush acc) []

/-- Add one ignore-file entry to the compiled map (`fileProcessor.ts:70-77`):
patterns of entries sharing an owning directory are appended to one matcher. -/
def addCompiled (m : List (Path × List String)) (e : Path × List String) :
    List (Path × List String) :=
  let dirPath := e.1.dropLast
  match m.find? (fun kv => kv.1 == dirPath) with
  | some _ => m.map (fun kv => if kv.1 == dirPath then (kv.1, kv.2 ++ e.2) else kv)
  | none => m ++ [(dirPath, e.2)]

/-- The compiled ignore map of one run (`compiledIgnores : CompiledIgnoreMap`). -/
def compiledIgnoresOf (fs : FSNode) (uris : List Path) : List (Path × List String) :=
  (allRelevantIgnoreFiles fs uris).foldl addCompiled []

/-- Association-list lookup, the model of `compiledIgnores.get(dirPath)`. -/
def lookupCompiled (m : List (Path × List String)) (d : Path) : Option (List String) :=
  (m.find? (fun kv => kv.1 == d)).map Prod.snd

/-- Whether directory `d` lies on the ancestor chain of the start directory of
some selected root (helper for stating which matchers can exist at all). -/
def coveredBy (fs : FSNode) (uris : List Path) (d : Path) : Bool :=
  uris.any (fun r =>
    match startDirOf fs r with
    | some sd => decide (d ∈ ancestorChain sd)
    | none => false)

/-- Closed form of the compiled map, proven equal to `compiledIgnoresOf` below:
a directory owns a matcher iff it is covered by some root's ancestor chain and
physically holds at least one ignore file, and the matcher's patterns are the
`.gitignore` patterns followed by the `.filecombine` patterns. -/
def canonLookup (fs : FSNode) (uris : List Path) (d : Path) : Option (List String) :=
  if coveredBy fs uris d && !(ignoreEntriesAt fs d).isEmpty
  then some ((ignoreEntriesAt fs d).flatMap Prod.snd)
  else none

/-! ### The collector (`collectFiles`, `fileProcessor.ts:222-283`) -/

/-- The mutable pieces of `combineFiles` state threaded through collection:
the cancellation-check counter, `fileUris`, `summary.excludedFiles`,
`summary.ignoredFiles` and `processedFilePaths`.  Workspace-relative paths
are recorded as component lists (`asRelativePath` is injective inside the
workspace). -/
structure CollectSt where
  cnt : Nat
  fileUris : List Path
  excludedFiles : List Path
  ignoredFiles : List (Path × Path)
  processedFilePaths : List Path

/-- Where the ignore walk starts (`fileProcessor.ts:247`): the path itself for
a directory, its containing directory for a file. -/
def walkStart (p : Path) (n : FSNode) : Path :=
  match n with
  | .dir _ => p
  | .file _ => p.dropLast

/-- Advance the cancellation-check counter. -/
def bumpCnt (st : CollectSt) : CollectSt := { st with cnt := st.cnt + 1 }

/-- Record a globally excluded path unless already present
(`fileProcessor.ts:237-242`). -/
def pushExcluded (st : CollectSt) (p : Path) : CollectSt :=
  if p ∈ st.excludedFiles then st
  else { st with excludedFiles := st.excludedFiles ++ [p] }

/-- Record an ignored path with its attributed directory unless a record for
the path already exists (`fileProcessor.ts:255-260`). -/
def pushIgnored (st : CollectSt) (p : Path) (reasonDir : Path) : CollectSt :=
  if p ∈ st.ignoredFiles.map Prod.fst then st
  else { st with ignoredFiles := st.ignoredFiles ++ [(p, reasonDir)] }

/-- Record a collected file, deduplicated via `processedFilePaths`
(`fileProcessor.ts:269-272`). -/
def pushFile (st : CollectSt) (p : Path) : CollectSt :=
  if p ∈ st.processedFilePaths then st
  else { st with fileUris := st.fileUris ++ [p],
                 processedFilePaths := st.processedFilePaths ++ [p] }

/-- The verdict of the checks of one `collectFiles` visit, in source order:
cancellation first, then the global excluder on the workspace-relative path,
then the hierarchical ignore walk from `startDir`. -/
inductive Decision where
  | cancelled
  | excluded
  | ignored (reasonDir : Path)
  | descend

/-- The checks of one `collectFiles` visit (`fileProcessor.ts:231-267`). -/
def decideVisit (C : Cfg) (p : Path) (startDir : Path) (c : Nat) : Decision :=
  if C.token c then .cancelled
  else if shouldExcludeFile C.globalExcluder (relString p) then .excluded
  else
    match ignoreWalk C p startDir with
    | some reasonDir => .ignored reasonDir
    | none => .descend

mutual
/-- Embedding of `collectFiles`: check the cancellation token, stat the path
(the constructor in scope), try the global excluder on the workspace-relative
path, then the upward hierarchical ignore walk, and finally either record the
file (deduplicated via `processedFilePaths`) or recurse into the directory
listing.  `Promise.all` over children is sequentialised; every per-path
decision is a pure function of the path, so only the order of appends can
differ. -/
def collectFiles : FSNode → Cfg → Path → CollectSt → CollectSt
  | .file _, C, p, st =>
    (match decideVisit C p p.dropLast st.cnt with
     | .cancelled => bumpCnt st
     | .excluded => pushExcluded (bumpCnt st) p
     | .ignored d => pushIgnored (bumpCnt st) p d
     | .descend => pushFile (bumpCnt st) p)
  | .dir cs, C, p, st =>
    (match decideVisit C p p st.cnt with
     | .cancelled => bumpCnt st
     | .excluded => pushExcluded (bumpCnt st) p
     | .ignored d => pushIgnored (bumpCnt st) p d
     | .descend => collectChildren cs C p (bumpCnt st))
/-- Collection over a directory listing (`dirContent.map` + recursion,
`fileProcessor.ts:274-278`). -/
def collectChildren : FSList → Cfg → Path → CollectSt → CollectSt
  | .nil, _, _, st => st
  | .cons name child rest, C, p, st =>
    collectChildren rest C p (collectFiles child C (p ++ [name]) st)
end

/-- Collection from one selected root: a root that fails to stat is absorbed
by the `try/catch` of `collectFiles`. -/
def collectRoot (C : Cfg) (fs : FSNode) (r : Path) (st : CollectSt) : CollectSt :=
  match resolveNode fs r with
  | some n => collectFiles n C r st
  | none => st

/-! ### Per-file processing (`processFile`, `fileProcessor.ts:327-352`) -/

/-- `Math.ceil(content.length / 4)` (`fileProcessor.ts:341`). -/
def estimatedTokens (characterCount : Nat) : Nat := ⌈(characterCount : ℚ) / 4⌉₊

/-- `path.basename` on a workspace path. -/
def basenameOf (p : Path) : String := p.getLast?.getD ""

/-- `path.extname(uri.fsPath).replace('.', '')` (`fileProcessor.ts:340`):
the part of the file name after its last dot, empty when there is no dot or
the only dot starts the name (dotfiles). -/
def fileExtension (name : String) : String :=
  let cs := name.toList
  if '.' ∈ cs then
    let suffix := cs.reverse.takeWhile (fun c => c != '.')
    let i := cs.length - 1 - suffix.length
    if i == 0 then "" else String.mk suffix.reverse
  else ""

/-- Outcome of `processFile`: a binary file is recorded and skipped, a text
file yields a Markdown fragment plus counters, a read failure is reported and
skipped.  Byte size and character count are both modelled by the content's
length (the source uses `buffer.length` and `content.length`, which agree on
ASCII). -/
inductive PFRes where
  | binaryFile
  | textFile (fragment : String) (relPath : Path) (size : Nat) (tokens : Nat)
  | readError

/-- Embedding of `processFile`. -/
def processFile (C : Cfg) (fs : FSNode) (p : Path) : PFRes :=
  match resolveNode fs p with
  | some (.file content) =>
    let fileSize := content.length
    if C.isText (basenameOf p) content then
      let relativePath := relString p
      let ext := fileExtension (basenameOf p)
      let toks := estimatedTokens content.length
      .textFile ("## Path: " ++ relativePath ++ " (" ++ C.formatFileSize fileSize ++
          ")\n\n```" ++ ext ++ "\n" ++ content ++ "\n```\n\n")
        p fileSize toks
    else .binaryFile
  | _ => .readError

/-- State of the per-file processing loop of `combineFiles`
(`fileProcessor.ts:93-106`): counter, `summary.binaryFiles`,
`processedPaths`, `combinedContent`, the aggregate counters, and whether the
loop returned early on a cancellation check. -/
structure ProcessSt where
  cnt : Nat
  binaryFiles : List Path
  processedPaths : List Path
  combinedContent : String
  processedFiles : Nat
  totalSize : Nat
  estTokens : Nat
  aborted : Bool

/-- The per-file loop: check the token before each file, then fold the
`processFile` outcome into the state. -/
def processLoop (C : Cfg) (fs : FSNode) : List Path → ProcessSt → ProcessSt
  | [], ps => ps
  | p :: rest, ps =>
    let c := ps.cnt
    let ps1 : ProcessSt := { ps with cnt := c + 1 }
    if C.token c then { ps1 with aborted := true }
    else
      match processFile C fs p with
      | .binaryFile => processLoop C fs rest { ps1 with binaryFiles := ps1.binaryFiles ++ [p] }
      | .readError => processLoop C fs rest ps1
      | .textFile frag rp size toks =>
        processLoop C fs rest { ps1 with
          processedPaths := ps1.processedPaths ++ [rp],
          combinedContent := ps1.combinedContent ++ frag,
          processedFiles := ps1.processedFiles + 1,
          totalSize := ps1.totalSize + size,
          estTokens := ps1.estTokens + toks }

/-! ### Tree view (`treeView.ts`) -/

mutual
/-- `TreeNode` of `types.ts`; the JavaScript `children` object in insertion
order becomes a list of child nodes (a mutual inductive keeps every function
on trees structurally recursive). -/
inductive TreeNode where
  | mk (name : String) (children : TNList) (isFile : Bool)
/-- A list of sibling tree nodes in insertion order. -/
inductive TNList where
  | nil
  | cons (node : TreeNode) (rest : TNList)
end

/-- The `name` field of a tree node. -/
def TreeNode.name : TreeNode → String
  | .mk n _ _ => n

/-- The `children` field of a tree node. -/
def TreeNode.children : TreeNode → TNList
  | .mk _ c _ => c

/-- The `isFile` field of a tree node. -/
def TreeNode.isFile : TreeNode → Bool
  | .mk _ _ f => f

/-- Whether a child with the given name exists (`!currentNode.children[part]`). -/
def TNList.hasName : TNList → String → Bool
  | .nil, _ => false
  | .cons node rest, part => node.name == part || rest.hasName part

/-- Apply `f` to every child whose name is `part` (mutating
`currentNode.children[part]` in place). -/
def TNList.mapAt : TNList → String → (TreeNode → TreeNode) → TNList
  | .nil, _, _ => .nil
  | .cons node rest, part, f =>
    .cons (if node.name == part then f node else node) (rest.mapAt part f)

/-- Append one child (creating `currentNode.children[part]`). -/
def TNList.push : TNList → TreeNode → TNList
  | .nil, c => .cons c .nil
  | .cons node rest, c => .cons node (rest.push c)

/-- Children as a plain list, for sorting. -/
def TNList.toList : TNList → List TreeNode
  | .nil => []
  | .cons node rest => node :: rest.toList

/-- Insertion of one split path into the tree (inner loop of
`createTreeStructure`, `treeView.ts:14-26`): descend through existing children
by name, creating a missing child with `isFile` set exactly on the last
component; an existing node is never re-flagged. -/
def insertPath : List String → TreeNode → TreeNode
  | [], n => n
  | part :: rest, .mk name children isFile =>
    let childIsFile := rest.isEmpty
    let children' :=
      if children.hasName part then children.mapAt part (fun c => insertPath rest c)
      else children.push (insertPath rest (.mk part .nil childIsFile))
    .mk name children' isFile

/-- Embedding of `createTreeStructure` (`treeView.ts:6-29`): fold every
path, split on `/`, into a root node named `"root"`. -/
def createTreeStructure (paths : List String) : TreeNode :=
  paths.foldl (fun root filePath => insertPath (jsSplit '/' filePath) root)
    (.mk "root" .nil false)

/-- Three-way comparison of naturals. -/
def natCmp (a b : Nat) : Ordering :=
  if a < b then .lt else if b < a then .gt else .eq

/-- Primary comparison of the default-locale collation: case-insensitive,
by lowercased code points. -/
def cmpPrimary (a b : Char) : Ordering := natCmp a.toLower.toNat b.toLower.toNat

/-- Case weight of the default-locale collation: lowercase (and caseless
characters) sort before uppercase. -/
def caseRank (c : Char) : Nat := if c.isUpper then 1 else 0

/-- Tertiary (case) comparison of the default-locale collation. -/
def cmpCase (a b : Char) : Ordering := natCmp (caseRank a) (caseRank b)

/-- Lexicographic comparison of character lists under a character comparison. -/
def lexOrd (f : Char → Char → Ordering) : List Char → List Char → Ordering
  | [], [] => .eq
  | [], _ :: _ => .lt
  | _ :: _, [] => .gt
  | a :: as, b :: bs =>
    match f a b with
    | .eq => lexOrd f as bs
    | .lt => .lt
    | .gt => .gt

/-- Comparison result as the number returned by `localeCompare`. -/
def ordToInt : Ordering → Int
  | .lt => -1
  | .eq => 0
  | .gt => 1

/-- Embedding of JavaScript `String.prototype.localeCompare` with no locale
argument (`treeView.ts:45`), restricted to ASCII names: the ICU root collation
compares case-insensitively first (primary pass over the whole strings) and
breaks ties by case, lowercase first — so `"a" < "B"` and `"a" < "A"`,
unlike ordinal code-point order. -/
def localeCompare (a b : String) : Int :=
  match lexOrd cmpPrimary a.toList b.toList with
  | .lt => -1
  | .gt => 1
  | .eq => ordToInt (lexOrd cmpCase a.toList b.toList)

/-- The two collation passes packaged as one three-way comparison
(`Ordering.then` takes the tertiary pass only on a primary tie); `localeCompare`
is `ordToInt` of this. -/
def strCmp (a b : String) : Ordering :=
  (lexOrd cmpPrimary a.toList b.toList).then (lexOrd cmpCase a.toList b.toList)

/-- The sibling comparator of `generateTreeView` (`treeView.ts:41-48`):
directories before files, then `localeCompare` on names. -/
def childCompare (a b : TreeNode) : Int :=
  if a.isFile == b.isFile then localeCompare a.name b.name
  else if a.isFile then 1 else -1

/-- The ordering relation realised by `childrenKeys.sort(comparator)`. -/
def childLe (a b : TreeNode) : Prop := childCompare a b ≤ 0

instance : DecidableRel childLe := fun x y => Int.decLe (childCompare x y) 0

/-- `Array.prototype.sort` with the sibling comparator; `sort` is stable and
the comparator never equates two distinct sibling names, modelled by a stable
insertion sort. -/
def sortChildren (cs : List TreeNode) : List TreeNode := List.insertionSort childLe cs

mutual
/-- The number of nodes of a tree, an upper bound on its depth. -/
def nodeCount : TreeNode → Nat
  | .mk _ cs _ => 1 + listCount cs
/-- The number of nodes of a child list. -/
def listCount : TNList → Nat
  | .nil => 0
  | .cons node rest => nodeCount node + listCount rest
end

/-- Recursion of `generateTreeView` (`treeView.ts:31-57`) on an explicit depth
budget (each recursive call works on a strictly smaller child node, so a
budget of `nodeCount` never runs out): the root pseudo-node prints nothing,
every other node prints `prefix ++ connector ++ name`, and children are
rendered sorted, the last sibling with the corner connector. -/
def renderAux : Nat → TreeNode → String → Bool → String
  | 0, _, _, _ => ""
  | fuel + 1, node, pre, isLast =>
    let own :=
      if node.name == "root" then ""
      else pre ++ (if isLast then "└── " else "├── ") ++ node.name ++ "\n"
    let sorted := sortChildren node.children.toList
    let count := sorted.length
    let childPre :=
      pre ++ (if node.name == "root" then "" else if isLast then "    " else "│   ")
    own ++ String.join (sorted.mapIdx (fun i c => renderAux fuel c childPre (i == count - 1)))

/-- Embedding of `generateTreeView` at its default arguments. -/
def generateTreeView (node : TreeNode) (pre : String) (isLast : Bool) : String :=
  renderAux (nodeCount node) node pre isLast

/-! ### The full run (`combineFiles`, `fileProcessor.ts:25-182`) -/

/-- The data of the document handed to `CombinedFilesPanel.createOrShow`: the
concatenated file fragments, the rendered tree (empty unless more than one
file was processed) and the processed paths.  The optional summary /
instructions / exclusion-listing / timing sections are presentation-layer
string formatting over the same summary data and are not re-modelled. -/
structure FinalDoc where
  combinedContent : String
  treeView : String
  processedPaths : List Path

/-- End of the run after the per-file loop (`fileProcessor.ts:108-180`): an
aborted loop produced no document; otherwise one final cancellation check,
then the empty-result warning path, then the document is assembled and shown.
The second component counts the cancellation checks performed. -/
def finalize (C : Cfg) (ps : ProcessSt) : Option FinalDoc × Nat :=
  if ps.aborted then (none, ps.cnt)
  else if C.token ps.cnt then (none, ps.cnt + 1)
  else if ps.processedFiles == 0 then (none, ps.cnt + 1)
  else
    let tv :=
      if 1 < ps.processedPaths.length
      then generateTreeView (createTreeStructure (ps.processedPaths.map relString)) "" true
      else ""
    (some ⟨ps.combinedContent, tv, ps.processedPaths⟩, ps.cnt + 1)

/-- Result of one invocation: the emitted document (if any), the collected
`fileUris`, the three exclusion lists of the summary, the processed paths and
the number of cancellation checks performed. -/
structure RunOut where
  doc : Option FinalDoc
  fileUris : List Path
  excludedFiles : List Path
  ignoredFiles : List (Path × Path)
  binaryFiles : List Path
  processedPaths : List Path
  checks : Nat

/-- The built-in default exclude patterns (`fileProcessor.ts:15-19`). -/
def DEFAULT_EXCLUDE_PATTERNS : List String :=
  ["package-lock.json", "yarn.lock", "pnpm-lock.yaml", "dist/**", "build/**",
   "node_modules/**", "*.min.js", "*.bundle.js", "tsconfig.tsbuildinfo",
   ".next/**", "*.svg", "*.jpg", "*.png", "*.ico", ".env*", "*.log",
   "coverage/**", ".idea/**", ".vscode/**"]

/-- Assemble the configuration of one run: compile the ignore map from the
selected roots; the matcher semantics, global excluder, classifier, size
formatter and token are supplied by the environment. -/
def mkCfg (fs : FSNode) (uris : List Path) (ignoresFn : List String → String → Bool)
    (globalExcluder : String → Bool) (isText : String → String → Bool)
    (formatFileSize : Nat → String) (token : Nat → Bool) : Cfg :=
  { compiledIgnores := lookupCompiled (compiledIgnoresOf fs uris),
    ignores := ignoresFn, globalExcluder := globalExcluder, isText := isText,
    formatFileSize := formatFileSize, token := token }

/-- Embedding of `combineFiles`: clear-cache + compile ignore map, collect
from every root, process every collected file, then finalize. -/
def combineFiles (fs : FSNode) (ignoresFn : List String → String → Bool)
    (globalExcluder : String → Bool) (isText : String → String → Bool)
    (formatFileSize : Nat → String) (token : Nat → Bool) (uris : List Path) : RunOut :=
  let C := mkCfg fs uris ignoresFn globalExcluder isText formatFileSize token
  let st0 : CollectSt := ⟨0, [], [], [], []⟩
  let stC := uris.foldl (fun st r => collectRoot C fs r st) st0
  let ps0 : ProcessSt := ⟨stC.cnt, [], [], "", 0, 0, 0, false⟩
  let ps := processLoop C fs stC.fileUris ps0
  let fin := finalize C ps
  ⟨fin.1, stC.fileUris, stC.excludedFiles, stC.ignoredFiles, ps.binaryFiles,
    ps.processedPaths, fin.2⟩

/-- A token that is never cancelled. -/
def noCancel : Nat → Bool := fun _ => false

/-! ### State-free specification of the collector, used to characterise the
run results; proven equivalent to `collectFiles` below. -/

/-- The paths a visit of `(p, n)` contributes, ignoring state: files that pass
both checks, visited globally-excluded paths, and visited ignored paths with
their attributed directory. -/
structure PureOut where
  files : List Path
  excluded : List Path
  ignored : List (Path × Path)

/-- The checks of one visit without the cancellation token (the decisions the
run takes when it is not cancelled); never returns `.cancelled`. -/
def pureDecision (C : Cfg) (p : Path) (startDir : Path) : Decision :=
  if shouldExcludeFile C.globalExcluder (relString p) then .excluded
  else
    match ignoreWalk C p startDir with
    | some reasonDir => .ignored reasonDir
    | none => .descend

mutual
/-- State-free contribution of visiting node `n` at path `p` (the `.cancelled`
arm is unreachable). -/
def pureNode : FSNode → Cfg → Path → PureOut
  | .file _, C, p =>
    (match pureDecision C p p.dropLast with
     | .cancelled => ⟨[], [], []⟩
     | .excluded => ⟨[], [p], []⟩
     | .ignored d => ⟨[], [], [(p, d)]⟩
     | .descend => ⟨[p], [], []⟩)
  | .dir cs, C, p =>
    (match pureDecision C p p with
     | .cancelled => ⟨[], [], []⟩
     | .excluded => ⟨[], [p], []⟩
     | .ignored d => ⟨[], [], [(p, d)]⟩
     | .descend => pureList cs C p)
/-- State-free contribution of a directory listing. -/
def pureList : FSList → Cfg → Path → PureOut
  | .nil, _, _ => ⟨[], [], []⟩
  | .cons name child rest, C, p =>
    let a := pureNode child C (p ++ [name])
    let b := pureList rest C p
    ⟨a.files ++ b.files, a.excluded ++ b.excluded, a.ignored ++ b.ignored⟩
end

/-- State-free contribution of one selected root. -/
def pureRoot (C : Cfg) (fs : FSNode) (r : Path) : PureOut :=
  match resolveNode fs r with
  | some n => pureNode n C r
  | none => ⟨[], [], []⟩

/-- The ignore-walk verdict on a path as resolved in the file system: the
directory a recorded exclusion of `q` is attributed to. -/
def walkAt (C : Cfg) (fs : FSNode) (q : Path) : Option Path :=
  match resolveNode fs q with
  | some n => ignoreWalk C q (walkStart q n)
  | none => none

/-- Invariant of the collection state: `fileUris` and `processedFilePaths`
have the same members, all four lists are duplicate-free (ignored keyed by
path), and membership in each exclusion list matches the global-excluder
verdict on the recorded path. -/
structure StInv (C : Cfg) (st : CollectSt) : Prop where
  files_iff : ∀ x, x ∈ st.fileUris ↔ x ∈ st.processedFilePaths
  files_nd : st.fileUris.Nodup
  proc_nd : st.processedFilePaths.Nodup
  excl_nd : st.excludedFiles.Nodup
  ign_nd : (st.ignoredFiles.map Prod.fst).Nodup
  excl_glob : ∀ x ∈ st.excludedFiles, C.globalExcluder (relString x) = true
  ign_glob : ∀ pr ∈ st.ignoredFiles, C.globalExcluder (relString pr.1) = false
  files_glob : ∀ x ∈ st.fileUris, C.globalExcluder (relString x) = false

/-- Coherence of recorded ignore attributions with the file system: every
recorded pair is the walk verdict of its path. -/
def IgnoredCoherent (C : Cfg) (fs : FSNode) (st : CollectSt) : Prop :=
  ∀ pr ∈ st.ignoredFiles, walkAt C fs pr.1 = some pr.2

/-- Relation between the state before a (cancellation-free) collection step,
the state after it, and the step's state-free contribution: members of each
result list are the old members plus the contribution (with reasons of newly
recorded ignore pairs coming from the contribution), and the state invariant
is maintained. -/
structure CollectSpec (C : Cfg) (st st' : CollectSt) (out : PureOut) : Prop where
  inv : StInv C st'
  files : ∀ x, x ∈ st'.fileUris ↔ x ∈ st.fileUris ∨ x ∈ out.files
  proc : ∀ x, x ∈ st'.processedFilePaths ↔ x ∈ st.processedFilePaths ∨ x ∈ out.files
  excl : ∀ x, x ∈ st'.excludedFiles ↔ x ∈ st.excludedFiles ∨ x ∈ out.excluded
  ignKeys : ∀ x, x ∈ st'.ignoredFiles.map Prod.fst ↔
      x ∈ st.ignoredFiles.map Prod.fst ∨ x ∈ out.ignored.map Prod.fst
  ignPairs : ∀ pr ∈ st'.ignoredFiles, pr ∈ st.ignoredFiles ∨ pr ∈ out.ignored

/-- The entries of an ignore-file list owned by directory `d` (the owning
directory of an entry is `dirname` of its file path). -/
def entriesForDir (d : Path) (l : List (Path × List String)) :
    List (Path × List String) :=
  l.filter (fun e => e.1.dropLast == d)

/-- How `addCompiled` accumulates a directory's patterns over a list of
entries: appended to the existing matcher if one exists, a fresh matcher
otherwise. -/
def combineOpt (o : Option (List String)) (es : List (Path × List String)) :
    Option (List String) :=
  match o with
  | none => if es.isEmpty then none else some (es.flatMap Prod.snd)
  | some v => some (v ++ es.flatMap Prod.snd)

/-- Every directory level visited while discovering ignore files: the union of
the ancestor chains of the unique start directories. -/
def chainDirs (fs : FSNode) (uris : List Path) : List Path :=
  (uniqueStartDirs fs uris).flatMap ancestorChain

/-! ### Concrete fixtures used by witness and counterexample theorems -/

/-- A toy instantiation of the `ignore` library's matcher: a path matches when
it is literally one of the pattern lines. -/
def ignMem : List String → String → Bool := fun pats s => pats.contains s

/-- A toy global excluder matching exactly `logo.png`. -/
def gexPng : String → Bool := fun s => s == "logo.png"

/-- A classifier that treats every file as text. -/
def isTextAll : String → String → Bool := fun _ _ => true

/-- A classifier that treats exactly `logo.bin` as binary. -/
def isTextNoBin : String → String → Bool := fun name _ => !(name == "logo.bin")

/-- A trivial size formatter. -/
def fmtNone : Nat → String := fun _ => ""

/-- A token that is cancelled from the start. -/
def tokenAlways : Nat → Bool := fun _ => true

/-- A sample workspace: a root `.gitignore` ignoring `build`, a text file, an
ignored directory, a globally excluded image, and a subdirectory with its own
`.gitignore`. -/
def fsW : FSNode :=
  .dir (.cons ".gitignore" (.file "build\n")
       (.cons "a.txt" (.file "hello")
       (.cons "build" (.dir (.cons "out.txt" (.file "xx") .nil))
       (.cons "logo.png" (.file "PNG")
       (.cons "sub" (.dir (.cons ".gitignore" (.file "secret.txt\n")
                          (.cons "ok.txt" (.file "ok")
                          (.cons "secret.txt" (.file "s") .nil))))
        .nil)))))

/-- A 400-character file content. -/
def content400 : String := String.mk (List.replicate 400 'a')

/-- A workspace holding one 400-character text file. -/
def fs400 : FSNode := .dir (.cons "f.txt" (.file content400) .nil)

/-! ## Theorems -/

/-! ### The ancestor chain -/

theorem length_le_of_mem_upChain :
    ∀ {n : Nat} {d x : Path}, x ∈ upChain n d → x.length ≤ d.length := by
  intro n
  induction n with
  | zero =>
    intro d x h
    simp [upChain] at h
    simp [h]
  | succ m ih =>
    intro d x h
    simp [upChain] at h
    rcases h with h | h
    · simp [h]
    · have h1 := ih h
      have h2 : d.dropLast.length = d.length - 1 := List.length_dropLast d
      omega

theorem pairwise_upChain :
    ∀ {n : Nat} {d : Path}, d.length = n →
      List.Pairwise (fun a b => b.length < a.length) (upChain n d) := by
  intro n
  induction n with
  | zero => intro d _; simp [upChain]
  | succ m ih =>
    intro d hd
    have hdrop : d.dropLast.length = m := by
      have := List.length_dropLast d
      omega
    simp only [upChain]
    refine List.pairwise_cons.2 ⟨?_, ih hdrop⟩
    intro x hx
    have := length_le_of_mem_upChain hx
    omega

theorem ancestorChain_pairwise (d : Path) :
    List.Pairwise (fun a b => b.length < a.length) (ancestorChain d) :=
  pairwise_upChain rfl

theorem length_le_of_mem_ancestorChain {d x : Path} (h : x ∈ ancestorChain d) :
    x.length ≤ d.length :=
  length_le_of_mem_upChain h

theorem self_mem_ancestorChain (d : Path) : d ∈ ancestorChain d := by
  unfold ancestorChain
  cases hd : d.length with
  | zero => simp [upChain]
  | succ m => simp [upChain]

/-! ### The ignore walk (claim C2) -/

theorem walkLoop_eq_none_iff (C : Cfg) (target : Path) (l : List Path) :
    walkLoop C target l = none ↔ ∀ d ∈ l, levelMatches C target d = false := by
  induction l with
  | nil => simp [walkLoop]
  | cons h t ih =>
    cases hm : levelMatches C target h with
    | true => simp [walkLoop, hm]
    | false => simp [walkLoop, hm, ih]

theorem walkLoop_eq_some_iff (C : Cfg) (target : Path) {l : List Path}
    (hpw : List.Pairwise (fun a b => b.length < a.length) l) (d : Path) :
    walkLoop C target l = some d ↔
      d ∈ l ∧ levelMatches C target d = true ∧
        ∀ d' ∈ l, d.length < d'.length → levelMatches C target d' = false := by
  induction l with
  | nil => simp [walkLoop]
  | cons h t ih =>
    obtain ⟨hh, ht⟩ := List.pairwise_cons.1 hpw
    cases hm : levelMatches C target h with
    | true =>
      simp only [walkLoop, hm]
      rw [if_pos trivial]
      constructor
      · rintro h'
        obtain rfl : h = d := by simpa using h'
        refine ⟨List.mem_cons_self _ _, hm, ?_⟩
        intro d' hd' hlen
        rcases List.mem_cons.1 hd' with rfl | hd'
        · omega
        · exact absurd (hh d' hd') (by omega)
      · rintro ⟨hmem, hmatch, hmin⟩
        rcases List.mem_cons.1 hmem with rfl | hmem
        · rfl
        · have hlt : d.length < h.length := hh d hmem
          have := hmin h (List.mem_cons_self _ _) hlt
          rw [hm] at this
          exact absurd this (by simp)
    | false =>
      simp only [walkLoop, hm]
      rw [if_neg (by simp), ih ht]
      constructor
      · rintro ⟨hmem, hmatch, hmin⟩
        refine ⟨List.mem_cons_of_mem _ hmem, hmatch, ?_⟩
        intro d' hd' hlen
        rcases List.mem_cons.1 hd' with rfl | hd'
        · exact hm
        · exact hmin d' hd' hlen
      · rintro ⟨hmem, hmatch, hmin⟩
        rcases List.mem_cons.1 hmem with rfl | hmem
        · rw [hm] at hmatch; exact absurd hmatch (by simp)
        · exact ⟨hmem, hmatch, fun d' hd' hlen => hmin d' (List.mem_cons_of_mem _ hd') hlen⟩

/-- C2: for a path that is not globally excluded, `collectFiles` walks upward
from the path's containing directory toward the workspace root; at each level
that has a compiled ignore matcher it checks the path made relative to that
directory in POSIX form (`levelMatches`); the first, i.e. deepest, matching
level stops the walk and the exclusion is attributed to that directory, and if
no level matches the path is not ignored. -/
theorem ignoreWalk_deepest_first (C : Cfg) (target startDir : Path) :
    (∀ d, ignoreWalk C target startDir = some d ↔
        d ∈ ancestorChain startDir ∧ levelMatches C target d = true ∧
          ∀ d' ∈ ancestorChain startDir, d.length < d'.length →
            levelMatches C target d' = false) ∧
    (ignoreWalk C target startDir = none ↔
      ∀ d' ∈ ancestorChain startDir, levelMatches C target d' = false) :=
  ⟨fun d => walkLoop_eq_some_iff C target (ancestorChain_pairwise startDir) d,
   walkLoop_eq_none_iff C target _⟩

/-- Witness for C2 on the sample workspace: with matchers compiled for `sub`
and the root, `sub/secret.txt` is attributed to the deepest level `sub`. -/
theorem ignoreWalk_deepest_first_witness :
    ignoreWalk (mkCfg fsW [["sub"]] ignMem gexPng isTextAll fmtNone noCancel)
      ["sub", "secret.txt"] ["sub"] = some ["sub"] :=
  ((ignoreWalk_deepest_first
      (mkCfg fsW [["sub"]] ignMem gexPng isTextAll fmtNone noCancel)
      ["sub", "secret.txt"] ["sub"]).1 ["sub"]).mpr (by decide)

/-! ### The ignore-file line parser (claim C4) -/

theorem jsTrim_eq_empty_iff (s : String) :
    jsTrim s = "" ↔ ∀ c ∈ s.toList, c.isWhitespace = true := by
  constructor
  · intro h
    have hL : ((s.toList.dropWhile Char.isWhitespace).reverse.dropWhile
        Char.isWhitespace).reverse = [] := by
      have h2 := congrArg String.data h
      simpa [jsTrim] using h2
    rw [List.reverse_eq_nil_iff, List.dropWhile_eq_nil_iff] at hL
    intro c hc
    have hsplit := List.takeWhile_append_dropWhile (p := Char.isWhitespace) (l := s.toList)
    rcases List.mem_append.1 (hsplit ▸ hc) with h1 | h1
    · exact List.mem_takeWhile_imp h1
    · exact hL c (List.mem_reverse.2 h1)
  · intro h
    have hA : s.toList.dropWhile Char.isWhitespace = [] :=
      List.dropWhile_eq_nil_iff.2 h
    unfold jsTrim
    rw [hA]
    rfl

/-- Counterexample to C4 as stated: the line `" #x"` has `#` as its first
non-whitespace character — a comment line in the claim's sense — yet the
parser keeps it, because the source tests `p.startsWith('#')` on the raw line
rather than on the trimmed line. -/
theorem parsePatterns_keeps_indented_comment :
    parsePatterns " #x" = [" #x"] ∧
      (" #x".toList.dropWhile Char.isWhitespace).head? = some '#' := by
  constructor
  · rfl
  · rfl

/-- C4 amended: parsing an ignore file's content splits it on newlines and
keeps, in order, exactly the lines that contain a non-whitespace character
and do not start with `#` as their first raw character (a line whose `#`
follows leading whitespace is kept; a blank line — all whitespace — is
filtered). -/
theorem parsePatterns_characterization (content : String) :
    List.Sublist (parsePatterns content) (jsSplit '\n' content) ∧
    ∀ l ∈ jsSplit '\n' content,
      (l ∈ parsePatterns content ↔
        ((∃ c ∈ l.toList, c.isWhitespace = false) ∧ jsStartsWith l "#" = false)) := by
  refine ⟨List.filter_sublist _, ?_⟩
  intro l hl
  rw [parsePatterns, List.mem_filter]
  constructor
  · rintro ⟨-, hcond⟩
    rw [Bool.and_eq_true] at hcond
    obtain ⟨h1, h2⟩ := hcond
    constructor
    · by_contra hall
      push_neg at hall
      have hws : ∀ c ∈ l.toList, c.isWhitespace = true := by
        intro c hc
        have := hall c hc
        revert this
        cases c.isWhitespace <;> simp
      have := (jsTrim_eq_empty_iff l).2 hws
      rw [bne_iff_ne] at h1
      exact absurd this h1
    · simpa using h2
  · rintro ⟨⟨c, hc, hcw⟩, h2⟩
    refine ⟨hl, ?_⟩
    rw [Bool.and_eq_true]
    refine ⟨?_, by simp [h2]⟩
    rw [bne_iff_ne]
    intro heq
    have := (jsTrim_eq_empty_iff l).1 heq c hc
    rw [hcw] at this
    exact absurd this (by simp)

/-- Witness for the amended C4: on the content `"a\n #x\n\n#z"`, the kept
lines form a sublist of the split lines, and the line `"a"` is kept because it
has a non-whitespace character and does not start with `#`. -/
theorem parsePatterns_characterization_witness :
    List.Sublist (parsePatterns "a\n #x\n\n#z") (jsSplit '\n' "a\n #x\n\n#z") ∧
      ("a" ∈ parsePatterns "a\n #x\n\n#z" ↔
        ((∃ c ∈ "a".toList, c.isWhitespace = false) ∧ jsStartsWith "a" "#" = false)) :=
  ⟨(parsePatterns_characterization "a\n #x\n\n#z").1,
   (parsePatterns_characterization "a\n #x\n\n#z").2 "a" (by decide)⟩

/-! ### The token estimate (claim C8) -/

theorem estimatedTokens_eq (n : Nat) : estimatedTokens n = (n + 3) / 4 := by
  rcases Nat.eq_zero_or_pos n with hn | hn
  · subst hn
    simp [estimatedTokens]
  · have hkpos : 0 < (n + 3) / 4 := by omega
    set k := (n + 3) / 4 with hk
    have hub : n ≤ 4 * k := by omega
    have hlb : 4 * k < n + 4 := by omega
    have hubQ : (n : ℚ) ≤ 4 * (k : ℚ) := by exact_mod_cast hub
    have hlbQ : (4 : ℚ) * (k : ℚ) < (n : ℚ) + 4 := by exact_mod_cast hlb
    rw [estimatedTokens, Nat.ceil_eq_iff (by omega)]
    constructor
    · rw [lt_div_iff₀ (by norm_num : (0:ℚ) < 4), Nat.cast_sub hkpos]
      push_cast
      linarith
    · rw [div_le_iff₀ (by norm_num : (0:ℚ) < 4)]
      linarith

/-- C8: for every text file processed, the estimated token count recorded by
`processFile` is `estimatedTokens` of the decoded content's character count,
which equals `⌈characterCount / 4⌉ = (characterCount + 3) / 4`. -/
theorem processFile_token_estimate (C : Cfg) (fs : FSNode) (p : Path) (content : String)
    (hres : resolveNode fs p = some (.file content))
    (htext : C.isText (basenameOf p) content = true) :
    (∃ frag, processFile C fs p =
        .textFile frag p content.length (estimatedTokens content.length)) ∧
    estimatedTokens content.length = (content.length + 3) / 4 := by
  constructor
  · refine ⟨"## Path: " ++ relString p ++ " (" ++ C.formatFileSize content.length ++
      ")\n\n```" ++ fileExtension (basenameOf p) ++ "\n" ++ content ++ "\n```\n\n", ?_⟩
    simp [processFile, hres, htext]
  · exact estimatedTokens_eq _

set_option maxRecDepth 4000 in
/-- Witness for C8: a text file with exactly 400 characters yields an
estimate of 100 tokens. -/
theorem processFile_token_estimate_witness :
    (∃ frag, processFile (mkCfg fs400 [[]] ignMem gexPng isTextAll fmtNone noCancel)
        fs400 ["f.txt"] =
        .textFile frag ["f.txt"] content400.length (estimatedTokens content400.length)) ∧
    estimatedTokens content400.length = 100 := by
  have h := processFile_token_estimate
    (mkCfg fs400 [[]] ignMem gexPng isTextAll fmtNone noCancel) fs400 ["f.txt"]
    content400 rfl rfl
  refine ⟨h.1, ?_⟩
  rw [h.2]
  decide

/-! ### Sibling ordering in the rendered tree (claim C5) -/

theorem natCmp_eq_iff {a b : Nat} : natCmp a b = .eq ↔ a = b := by
  rcases Nat.lt_trichotomy a b with h | h | h
  · simp only [natCmp, if_pos h]
    constructor
    · intro h2; exact absurd h2 (by simp)
    · intro h2; omega
  · subst h
    simp [natCmp]
  · simp only [natCmp, if_neg (Nat.lt_asymm h), if_pos h]
    constructor
    · intro h2; exact absurd h2 (by simp)
    · intro h2; omega

theorem natCmp_lt_iff {a b : Nat} : natCmp a b = .lt ↔ a < b := by
  rcases Nat.lt_trichotomy a b with h | h | h
  · simp [natCmp, h]
  · subst h
    simp [natCmp]
  · simp only [natCmp, if_neg (Nat.lt_asymm h), if_pos h]
    constructor
    · intro h2; exact absurd h2 (by simp)
    · intro h2; omega

theorem natCmp_swap (a b : Nat) : natCmp b a = (natCmp a b).swap := by
  rcases Nat.lt_trichotomy a b with h | h | h
  · simp [natCmp, h, Nat.lt_asymm h, Ordering.swap]
  · subst h
    simp [natCmp, Ordering.swap]
  · simp [natCmp, h, Nat.lt_asymm h, Ordering.swap]

theorem natCmp_lt_trans {a b c : Nat} (h1 : natCmp a b = .lt) (h2 : natCmp b c = .lt) :
    natCmp a c = .lt := by
  rw [natCmp_lt_iff] at h1 h2 ⊢
  omega

theorem lexOrd_nil_nil {f : Char → Char → Ordering} : lexOrd f [] [] = .eq := rfl

theorem lexOrd_cons {f : Char → Char → Ordering} (a b : Char) (as bs : List Char) :
    lexOrd f (a :: as) (b :: bs) =
      if f a b = .eq then lexOrd f as bs else f a b := by
  simp only [lexOrd]
  cases f a b <;> simp

theorem lexOrd_congr_left {f : Char → Char → Ordering}
    (hEL : ∀ a b c, f a b = .eq → f a c = f b c) :
    ∀ (x y z : List Char), lexOrd f x y = .eq → lexOrd f x z = lexOrd f y z := by
  intro x
  induction x with
  | nil =>
    intro y z h
    cases y with
    | nil => rfl
    | cons b bs => exact absurd h (by simp [lexOrd])
  | cons a as ih =>
    intro y z h
    cases y with
    | nil => exact absurd h (by simp [lexOrd])
    | cons b bs =>
      rw [lexOrd_cons] at h
      split at h
      case isTrue hab =>
        cases z with
        | nil => rfl
        | cons c cs =>
          rw [lexOrd_cons, lexOrd_cons, hEL a b c hab]
          split
          · exact ih bs cs h
          · rfl
      case isFalse hab => exact absurd h hab

theorem lexOrd_lt_trans {f : Char → Char → Ordering}
    (hEL : ∀ a b c, f a b = .eq → f a c = f b c)
    (hER : ∀ a b c, f b c = .eq → f a b = f a c)
    (hT : ∀ a b c, f a b = .lt → f b c = .lt → f a c = .lt) :
    ∀ (x y z : List Char), lexOrd f x y = .lt → lexOrd f y z = .lt →
      lexOrd f x z = .lt := by
  intro x
  induction x with
  | nil =>
    intro y z h1 h2
    cases y with
    | nil => exact absurd h1 (by simp [lexOrd])
    | cons b bs =>
      cases z with
      | nil => exact absurd h2 (by simp [lexOrd])
      | cons c cs => rfl
  | cons a as ih =>
    intro y z h1 h2
    cases y with
    | nil => exact absurd h1 (by simp [lexOrd])
    | cons b bs =>
      cases z with
      | nil => exact absurd h2 (by simp [lexOrd])
      | cons c cs =>
        rw [lexOrd_cons] at h1 h2 ⊢
        split at h1
        case isTrue hab =>
          split at h2
          case isTrue hbc =>
            rw [if_pos ((hEL a b c hab).trans hbc)]
            exact ih bs cs h1 h2
          case isFalse hbc =>
            rw [hEL a b c hab, if_neg hbc]
            exact h2
        case isFalse hab =>
          split at h2
          case isTrue hbc =>
            rw [← hER a b c hbc, if_neg hab]
            exact h1
          case isFalse hbc =>
            have hac : f a c = .lt := hT a b c h1 h2
            rw [hac]
            simp

theorem lexOrd_swap {f : Char → Char → Ordering}
    (hS : ∀ a b, f b a = (f a b).swap) :
    ∀ (x y : List Char), lexOrd f y x = (lexOrd f x y).swap := by
  intro x
  induction x with
  | nil => intro y; cases y <;> rfl
  | cons a as ih =>
    intro y
    cases y with
    | nil => rfl
    | cons b bs =>
      rw [lexOrd_cons, lexOrd_cons, hS a b]
      cases hab : f a b with
      | eq => simpa [Ordering.swap] using ih bs
      | lt => simp [Ordering.swap]
      | gt => simp [Ordering.swap]

theorem lexOrd_congr_right {f : Char → Char → Ordering}
    (hEL : ∀ a b c, f a b = .eq → f a c = f b c)
    (hS : ∀ a b, f b a = (f a b).swap) (x y z : List Char)
    (h : lexOrd f y z = .eq) : lexOrd f x y = lexOrd f x z := by
  have h1 := lexOrd_congr_left hEL y z x h
  have e1 : lexOrd f x y = (lexOrd f y x).swap := lexOrd_swap hS y x
  have e2 : lexOrd f x z = (lexOrd f z x).swap := lexOrd_swap hS z x
  rw [e1, e2, h1]

theorem cmpPrimary_congr_left (a b c : Char) (h : cmpPrimary a b = .eq) :
    cmpPrimary a c = cmpPrimary b c := by
  unfold cmpPrimary at *
  rw [natCmp_eq_iff.1 h]

theorem cmpPrimary_congr_right (a b c : Char) (h : cmpPrimary b c = .eq) :
    cmpPrimary a b = cmpPrimary a c := by
  unfold cmpPrimary at *
  rw [natCmp_eq_iff.1 h]

theorem cmpPrimary_swap (a b : Char) : cmpPrimary b a = (cmpPrimary a b).swap :=
  natCmp_swap _ _

theorem cmpPrimary_lt_trans (a b c : Char) (h1 : cmpPrimary a b = .lt)
    (h2 : cmpPrimary b c = .lt) : cmpPrimary a c = .lt :=
  natCmp_lt_trans h1 h2

theorem cmpCase_congr_left (a b c : Char) (h : cmpCase a b = .eq) :
    cmpCase a c = cmpCase b c := by
  unfold cmpCase at *
  rw [natCmp_eq_iff.1 h]

theorem cmpCase_congr_right (a b c : Char) (h : cmpCase b c = .eq) :
    cmpCase a b = cmpCase a c := by
  unfold cmpCase at *
  rw [natCmp_eq_iff.1 h]

theorem cmpCase_swap (a b : Char) : cmpCase b a = (cmpCase a b).swap :=
  natCmp_swap _ _

theorem cmpCase_lt_trans (a b c : Char) (h1 : cmpCase a b = .lt)
    (h2 : cmpCase b c = .lt) : cmpCase a c = .lt :=
  natCmp_lt_trans h1 h2

theorem strCmp_swap (a b : String) : strCmp b a = (strCmp a b).swap := by
  unfold strCmp
  rw [lexOrd_swap cmpPrimary_swap a.toList b.toList,
    lexOrd_swap cmpCase_swap a.toList b.toList]
  cases lexOrd cmpPrimary a.toList b.toList <;>
    cases lexOrd cmpCase a.toList b.toList <;> rfl

theorem then_ne_gt {x y : Ordering} :
    x.then y ≠ .gt ↔ (x = .lt ∨ (x = .eq ∧ y ≠ .gt)) := by
  cases x <;> cases y <;> simp [Ordering.then]

theorem strCmp_le_trans {a b c : String} (h1 : strCmp a b ≠ .gt)
    (h2 : strCmp b c ≠ .gt) : strCmp a c ≠ .gt := by
  unfold strCmp at h1 h2 ⊢
  rw [then_ne_gt] at h1 h2 ⊢
  rcases h1 with h1 | ⟨h1e, h1q⟩ <;> rcases h2 with h2 | ⟨h2e, h2q⟩
  · exact Or.inl (lexOrd_lt_trans cmpPrimary_congr_left cmpPrimary_congr_right
      cmpPrimary_lt_trans _ _ _ h1 h2)
  · left
    rw [← lexOrd_congr_right cmpPrimary_congr_left cmpPrimary_swap
      a.toList b.toList c.toList h2e]
    exact h1
  · left
    rw [lexOrd_congr_left cmpPrimary_congr_left a.toList b.toList c.toList h1e]
    exact h2
  · right
    refine ⟨(lexOrd_congr_left cmpPrimary_congr_left a.toList b.toList c.toList
      h1e).trans h2e, ?_⟩
    cases hq1 : lexOrd cmpCase a.toList b.toList with
    | gt => exact absurd hq1 h1q
    | lt =>
      cases hq2 : lexOrd cmpCase b.toList c.toList with
      | gt => exact absurd hq2 h2q
      | lt =>
        rw [lexOrd_lt_trans cmpCase_congr_left cmpCase_congr_right
          cmpCase_lt_trans _ _ _ hq1 hq2]
        simp
      | eq =>
        rw [← lexOrd_congr_right cmpCase_congr_left cmpCase_swap
          a.toList b.toList c.toList hq2, hq1]
        simp
    | eq =>
      rw [lexOrd_congr_left cmpCase_congr_left a.toList b.toList c.toList hq1]
      exact h2q

theorem strCmp_le_total (a b : String) : strCmp a b ≠ .gt ∨ strCmp b a ≠ .gt := by
  cases h : strCmp a b with
  | gt =>
    right
    rw [strCmp_swap a b, h]
    simp [Ordering.swap]
  | lt => left; simp [h]
  | eq => left; simp [h]

theorem localeCompare_eq_ordToInt (a b : String) :
    localeCompare a b = ordToInt (strCmp a b) := by
  unfold localeCompare strCmp
  cases lexOrd cmpPrimary a.toList b.toList <;>
    cases lexOrd cmpCase a.toList b.toList <;> rfl

theorem localeCompare_le_iff {a b : String} :
    localeCompare a b ≤ 0 ↔ strCmp a b ≠ .gt := by
  rw [localeCompare_eq_ordToInt]
  cases strCmp a b <;> simp [ordToInt]

theorem childLe_total (a b : TreeNode) : childLe a b ∨ childLe b a := by
  unfold childLe childCompare
  cases ha : a.isFile <;> cases hb : b.isFile <;>
    simp [ha, hb, localeCompare_le_iff]
  · exact strCmp_le_total _ _
  · exact strCmp_le_total _ _

theorem childLe_trans (a b c : TreeNode) (h1 : childLe a b) (h2 : childLe b c) :
    childLe a c := by
  unfold childLe childCompare at h1 h2 ⊢
  cases ha : a.isFile <;> cases hb : b.isFile <;> cases hc : c.isFile <;>
    simp [ha, hb, hc, localeCompare_le_iff] at h1 h2 ⊢
  · exact strCmp_le_trans h1 h2
  · exact strCmp_le_trans h1 h2

/-- C5 amended: in the rendered tree, at each level all directory entries are
listed before all file entries, and within the same kind siblings are ordered
by the default-locale `localeCompare` (case-insensitive primary comparison,
with lowercase before uppercase on ties) — not by case-sensitive ordinal
comparison.  `sortChildren` is the sibling ordering applied at every level of
`generateTreeView`, and its output is a permutation of the children, sorted by
that rule. -/
theorem sortChildren_sorted (cs : List TreeNode) :
    List.Sorted (fun a b => (a.isFile = false ∧ b.isFile = true) ∨
      (a.isFile = b.isFile ∧ localeCompare a.name b.name ≤ 0)) (sortChildren cs) ∧
    (sortChildren cs).Perm cs := by
  constructor
  · have hs : List.Sorted childLe (sortChildren cs) := by
      haveI : IsTotal TreeNode childLe := ⟨childLe_total⟩
      haveI : IsTrans TreeNode childLe := ⟨childLe_trans⟩
      exact List.sorted_insertionSort childLe cs
    refine hs.imp ?_
    intro a b hab
    unfold childLe childCompare at hab
    cases ha : a.isFile <;> cases hb : b.isFile <;> simp [ha, hb] at hab ⊢
    · exact hab
    · exact hab
  · exact List.perm_insertionSort childLe cs

/-- Counterexample to C5 as stated: for the sibling files `B.txt` and `a.txt`,
the rendered tree lists `a.txt` first (the `localeCompare` order), although
case-sensitive ordinal comparison of the names (lexicographic on code points,
expressed with `lexOrd`/`natCmp` over `Char.toNat`) orders `"B.txt"` strictly
before `"a.txt"` — so same-kind siblings are not ordered by case-sensitive
ordinal comparison. -/
theorem treeView_not_ordinal_order :
    generateTreeView (createTreeStructure ["B.txt", "a.txt"]) "" true =
      "├── a.txt\n└── B.txt\n" ∧
    lexOrd (fun a b => natCmp a.toNat b.toNat) "B.txt".toList "a.txt".toList =
      .lt := by
  constructor
  · decide
  · decide

/-! ### State invariants of the collector (claims C1, C3, C10) -/

theorem stinv_empty (C : Cfg) : StInv C ⟨0, [], [], [], []⟩ := by
  constructor <;> simp

theorem stinv_bump {C : Cfg} {st : CollectSt} (h : StInv C st) : StInv C (bumpCnt st) :=
  ⟨h.files_iff, h.files_nd, h.proc_nd, h.excl_nd, h.ign_nd, h.excl_glob, h.ign_glob,
    h.files_glob⟩

theorem stinv_pushExcluded {C : Cfg} {st : CollectSt} {p : Path} (h : StInv C st)
    (hp : C.globalExcluder (relString p) = true) : StInv C (pushExcluded st p) := by
  unfold pushExcluded
  split
  · exact h
  case isFalse hmem =>
    refine ⟨h.files_iff, h.files_nd, h.proc_nd, ?_, h.ign_nd, ?_, h.ign_glob,
      h.files_glob⟩
    · rw [List.nodup_append]
      refine ⟨h.excl_nd, List.nodup_singleton p, ?_⟩
      intro x hx hx2
      rw [List.mem_singleton] at hx2
      subst hx2
      exact hmem hx
    · intro x hx
      rcases List.mem_append.1 hx with hx | hx
      · exact h.excl_glob x hx
      · rw [List.mem_singleton] at hx
        subst hx
        exact hp

theorem stinv_pushIgnored {C : Cfg} {st : CollectSt} {p d : Path} (h : StInv C st)
    (hp : C.globalExcluder (relString p) = false) : StInv C (pushIgnored st p d) := by
  unfold pushIgnored
  split
  · exact h
  case isFalse hmem =>
    refine ⟨h.files_iff, h.files_nd, h.proc_nd, h.excl_nd, ?_, h.excl_glob, ?_,
      h.files_glob⟩
    · simp only [List.map_append, List.map_cons, List.map_nil]
      rw [List.nodup_append]
      refine ⟨h.ign_nd, by simp, ?_⟩
      intro x hx hx2
      rw [List.mem_singleton] at hx2
      subst hx2
      exact hmem hx
    · intro pr hpr
      rcases List.mem_append.1 hpr with hx | hx
      · exact h.ign_glob pr hx
      · rw [List.mem_singleton] at hx
        subst hx
        exact hp

theorem stinv_pushFile {C : Cfg} {st : CollectSt} {p : Path} (h : StInv C st)
    (hp : C.globalExcluder (relString p) = false) : StInv C (pushFile st p) := by
  unfold pushFile
  split
  · exact h
  case isFalse hmem =>
    have hmemf : p ∉ st.fileUris := fun hx => hmem ((h.files_iff p).1 hx)
    refine ⟨?_, ?_, ?_, h.excl_nd, h.ign_nd, h.excl_glob, h.ign_glob, ?_⟩
    · intro x
      rw [List.mem_append, List.mem_append, h.files_iff x]
    · rw [List.nodup_append]
      refine ⟨h.files_nd, List.nodup_singleton p, ?_⟩
      intro x hx hx2
      rw [List.mem_singleton] at hx2
      subst hx2
      exact hmemf hx
    · rw [List.nodup_append]
      refine ⟨h.proc_nd, List.nodup_singleton p, ?_⟩
      intro x hx hx2
      rw [List.mem_singleton] at hx2
      subst hx2
      exact hmem hx
    · intro x hx
      rcases List.mem_append.1 hx with hx | hx
      · exact h.files_glob x hx
      · rw [List.mem_singleton] at hx
        subst hx
        exact hp

theorem decideVisit_excluded {C : Cfg} {p sd : Path} {c : Nat}
    (h : decideVisit C p sd c = .excluded) :
    C.globalExcluder (relString p) = true := by
  unfold decideVisit at h
  split at h
  · exact absurd h (by simp)
  · split at h
    case isTrue hg => exact hg
    case isFalse hg => split at h <;> exact absurd h (by simp)

theorem decideVisit_ignored {C : Cfg} {p sd : Path} {c : Nat} {d : Path}
    (h : decideVisit C p sd c = .ignored d) :
    C.globalExcluder (relString p) = false ∧ ignoreWalk C p sd = some d := by
  unfold decideVisit at h
  split at h
  · exact absurd h (by simp)
  · split at h
    case isTrue hg => exact absurd h (by simp)
    case isFalse hg =>
      split at h
      case h_1 x heq =>
        injection h with h2
        subst h2
        refine ⟨?_, heq⟩
        simpa using hg
      case h_2 => exact absurd h (by simp)

theorem decideVisit_descend {C : Cfg} {p sd : Path} {c : Nat}
    (h : decideVisit C p sd c = .descend) :
    C.globalExcluder (relString p) = false ∧ ignoreWalk C p sd = none := by
  unfold decideVisit at h
  split at h
  · exact absurd h (by simp)
  · split at h
    case isTrue hg => exact absurd h (by simp)
    case isFalse hg =>
      split at h
      case h_1 x heq => exact absurd h (by simp)
      case h_2 heq => exact ⟨by simpa using hg, heq⟩

mutual
theorem collectFiles_inv (C : Cfg) (n : FSNode) :
    ∀ (p : Path) (st : CollectSt), StInv C st → StInv C (collectFiles n C p st) := by
  cases n with
  | file c =>
    intro p st h
    simp only [collectFiles]
    cases hd : decideVisit C p p.dropLast st.cnt with
    | cancelled => exact stinv_bump h
    | excluded => exact stinv_pushExcluded (stinv_bump h) (decideVisit_excluded hd)
    | ignored d => exact stinv_pushIgnored (stinv_bump h) (decideVisit_ignored hd).1
    | descend => exact stinv_pushFile (stinv_bump h) (decideVisit_descend hd).1
  | dir cs =>
    intro p st h
    simp only [collectFiles]
    cases hd : decideVisit C p p st.cnt with
    | cancelled => exact stinv_bump h
    | excluded => exact stinv_pushExcluded (stinv_bump h) (decideVisit_excluded hd)
    | ignored d => exact stinv_pushIgnored (stinv_bump h) (decideVisit_ignored hd).1
    | descend => exact collectChildren_inv C cs p (bumpCnt st) (stinv_bump h)
theorem collectChildren_inv (C : Cfg) (cs : FSList) :
    ∀ (p : Path) (st : CollectSt), StInv C st → StInv C (collectChildren cs C p st) := by
  cases cs with
  | nil =>
    intro p st h
    simpa only [collectChildren] using h
  | cons name child rest =>
    intro p st h
    simp only [collectChildren]
    exact collectChildren_inv C rest p _ (collectFiles_inv C child (p ++ [name]) st h)
end

theorem collectRoot_inv (C : Cfg) (fs : FSNode) (r : Path) (st : CollectSt)
    (h : StInv C st) : StInv C (collectRoot C fs r st) := by
  unfold collectRoot
  cases resolveNode fs r with
  | some n => exact collectFiles_inv C n r st h
  | none => exact h

theorem foldl_collectRoot_inv (C : Cfg) (fs : FSNode) (uris : List Path)
    (st : CollectSt) (h : StInv C st) :
    StInv C (uris.foldl (fun s r => collectRoot C fs r s) st) := by
  induction uris generalizing st with
  | nil => simpa using h
  | cons r rest ih =>
    simp only [List.foldl_cons]
    exact ih _ (collectRoot_inv C fs r st h)

theorem processLoop_binary_sub (C : Cfg) (fs : FSNode) (files : List Path)
    (ps : ProcessSt) :
    ∀ b ∈ (processLoop C fs files ps).binaryFiles, b ∈ ps.binaryFiles ∨ b ∈ files := by
  induction files generalizing ps with
  | nil =>
    intro b hb
    exact Or.inl (by simpa [processLoop] using hb)
  | cons p rest ih =>
    intro b hb
    simp only [processLoop] at hb
    split at hb
    · exact Or.inl (by simpa using hb)
    · split at hb
      · rcases ih _ b hb with h1 | h1
        · rcases List.mem_append.1 h1 with h2 | h2
          · exact Or.inl h2
          · rw [List.mem_singleton] at h2
            subst h2
            exact Or.inr (List.mem_cons_self _ _)
        · exact Or.inr (List.mem_cons_of_mem _ h1)
      · rcases ih _ b hb with h1 | h1
        · exact Or.inl (by simpa using h1)
        · exact Or.inr (List.mem_cons_of_mem _ h1)
      · rcases ih _ b hb with h1 | h1
        · exact Or.inl (by simpa using h1)
        · exact Or.inr (List.mem_cons_of_mem _ h1)

/-- C1: the global exclude check runs before any hierarchical ignore check,
so in any run every path in the global-exclusion list matches the global
excluder, while every path recorded in the ignore-rule list or the binary list
does not — a path matching a global exclude pattern is therefore recorded only
in `excludedFiles`, never also in `ignoredFiles` or `binaryFiles`. -/
theorem global_exclude_precedence (fs : FSNode)
    (ignoresFn : List String → String → Bool) (globalExcluder : String → Bool)
    (isText : String → String → Bool) (formatFileSize : Nat → String)
    (token : Nat → Bool) (uris : List Path) :
    (∀ q ∈ (combineFiles fs ignoresFn globalExcluder isText formatFileSize token
        uris).excludedFiles, globalExcluder (relString q) = true) ∧
    (∀ pr ∈ (combineFiles fs ignoresFn globalExcluder isText formatFileSize token
        uris).ignoredFiles, globalExcluder (relString pr.1) = false) ∧
    (∀ q ∈ (combineFiles fs ignoresFn globalExcluder isText formatFileSize token
        uris).binaryFiles, globalExcluder (relString q) = false) := by
  simp only [combineFiles]
  have hinv := foldl_collectRoot_inv
    (mkCfg fs uris ignoresFn globalExcluder isText formatFileSize token) fs uris
    ⟨0, [], [], [], []⟩ (stinv_empty _)
  refine ⟨fun q hq => hinv.excl_glob q hq, fun pr hpr => hinv.ign_glob pr hpr, ?_⟩
  intro q hq
  rcases processLoop_binary_sub _ fs _ _ q hq with h1 | h1
  · exact absurd h1 (by simp)
  · exact hinv.files_glob q h1

/-- Witness for C1: in the sample workspace, `logo.png` matches the global
excluder, and the theorem discharges with it recorded nowhere else. -/
theorem global_exclude_precedence_witness :
    gexPng (relString ["logo.png"]) = true ∧
    (["logo.png"] : Path) ∈
      (combineFiles fsW ignMem gexPng isTextAll fmtNone noCancel [[]]).excludedFiles :=
  ⟨(global_exclude_precedence fsW ignMem gexPng isTextAll fmtNone noCancel [[]]).1
      ["logo.png"] (by decide),
   by decide⟩

/-- C3: no absolute file path appears more than once in the final included
set (`fileUris`), even when the same file is reachable from two different
selected roots. -/
theorem included_files_nodup (fs : FSNode)
    (ignoresFn : List String → String → Bool) (globalExcluder : String → Bool)
    (isText : String → String → Bool) (formatFileSize : Nat → String)
    (token : Nat → Bool) (uris : List Path) :
    (combineFiles fs ignoresFn globalExcluder isText formatFileSize token
      uris).fileUris.Nodup := by
  simp only [combineFiles]
  exact (foldl_collectRoot_inv _ fs uris _ (stinv_empty _)).files_nd

/-- C10: the reported exclusion lists are duplicate-free — a path enters the
global-exclusion list only if not already present, and at most one record per
path enters the ignore-rule exclusion list, however many times the path is
visited. -/
theorem exclusion_lists_nodup (fs : FSNode)
    (ignoresFn : List String → String → Bool) (globalExcluder : String → Bool)
    (isText : String → String → Bool) (formatFileSize : Nat → String)
    (token : Nat → Bool) (uris : List Path) :
    (combineFiles fs ignoresFn globalExcluder isText formatFileSize token
      uris).excludedFiles.Nodup ∧
    ((combineFiles fs ignoresFn globalExcluder isText formatFileSize token
      uris).ignoredFiles.map Prod.fst).Nodup := by
  simp only [combineFiles]
  exact ⟨(foldl_collectRoot_inv _ fs uris _ (stinv_empty _)).excl_nd,
    (foldl_collectRoot_inv _ fs uris _ (stinv_empty _)).ign_nd⟩

/-! ### Membership characterisation of the collector (claims C6, C9) -/

theorem pushExcluded_fileUris (st : CollectSt) (p : Path) :
    (pushExcluded st p).fileUris = st.fileUris := by
  unfold pushExcluded
  split <;> rfl

theorem pushExcluded_processed (st : CollectSt) (p : Path) :
    (pushExcluded st p).processedFilePaths = st.processedFilePaths := by
  unfold pushExcluded
  split <;> rfl

theorem pushExcluded_ignored (st : CollectSt) (p : Path) :
    (pushExcluded st p).ignoredFiles = st.ignoredFiles := by
  unfold pushExcluded
  split <;> rfl

theorem mem_pushExcluded (st : CollectSt) (p x : Path) :
    x ∈ (pushExcluded st p).excludedFiles ↔ x ∈ st.excludedFiles ∨ x = p := by
  unfold pushExcluded
  split
  case isTrue hmem =>
    constructor
    · exact Or.inl
    · rintro (hx | rfl)
      · exact hx
      · exact hmem
  case isFalse hmem =>
    show x ∈ st.excludedFiles ++ [p] ↔ _
    rw [List.mem_append, List.mem_singleton]

theorem pushIgnored_fileUris (st : CollectSt) (p d : Path) :
    (pushIgnored st p d).fileUris = st.fileUris := by
  unfold pushIgnored
  split <;> rfl

theorem pushIgnored_processed (st : CollectSt) (p d : Path) :
    (pushIgnored st p d).processedFilePaths = st.processedFilePaths := by
  unfold pushIgnored
  split <;> rfl

theorem pushIgnored_excluded (st : CollectSt) (p d : Path) :
    (pushIgnored st p d).excludedFiles = st.excludedFiles := by
  unfold pushIgnored
  split <;> rfl

theorem mem_pushIgnored_keys (st : CollectSt) (p d x : Path) :
    x ∈ (pushIgnored st p d).ignoredFiles.map Prod.fst ↔
      x ∈ st.ignoredFiles.map Prod.fst ∨ x = p := by
  unfold pushIgnored
  split
  case isTrue hmem =>
    constructor
    · exact Or.inl
    · rintro (hx | rfl)
      · exact hx
      · exact hmem
  case isFalse hmem =>
    show x ∈ (st.ignoredFiles ++ [(p, d)]).map Prod.fst ↔ _
    simp only [List.map_append, List.map_cons, List.map_nil, List.mem_append,
      List.mem_singleton]

theorem mem_pushIgnored_pairs (st : CollectSt) (p d : Path) (pr : Path × Path)
    (h : pr ∈ (pushIgnored st p d).ignoredFiles) :
    pr ∈ st.ignoredFiles ∨ pr = (p, d) := by
  unfold pushIgnored at h
  split at h
  · exact Or.inl h
  · rcases List.mem_append.1 h with hx | hx
    · exact Or.inl hx
    · rw [List.mem_singleton] at hx
      exact Or.inr hx

theorem pushFile_excluded (st : CollectSt) (p : Path) :
    (pushFile st p).excludedFiles = st.excludedFiles := by
  unfold pushFile
  split <;> rfl

theorem pushFile_ignored (st : CollectSt) (p : Path) :
    (pushFile st p).ignoredFiles = st.ignoredFiles := by
  unfold pushFile
  split <;> rfl

theorem mem_pushFile (st : CollectSt) (p : Path)
    (hiff : ∀ y, y ∈ st.fileUris ↔ y ∈ st.processedFilePaths) (x : Path) :
    (x ∈ (pushFile st p).fileUris ↔ x ∈ st.fileUris ∨ x = p) ∧
    (x ∈ (pushFile st p).processedFilePaths ↔ x ∈ st.processedFilePaths ∨ x = p) := by
  unfold pushFile
  split
  case isTrue hmem =>
    constructor
    · constructor
      · exact Or.inl
      · rintro (hx | rfl)
        · exact hx
        · exact (hiff x).2 hmem
    · constructor
      · exact Or.inl
      · rintro (hx | rfl)
        · exact hx
        · exact hmem
  case isFalse hmem =>
    constructor
    · show x ∈ st.fileUris ++ [p] ↔ _
      rw [List.mem_append, List.mem_singleton]
    · show x ∈ st.processedFilePaths ++ [p] ↔ _
      rw [List.mem_append, List.mem_singleton]

theorem pureDecision_excluded {C : Cfg} {p sd : Path}
    (h : pureDecision C p sd = .excluded) :
    C.globalExcluder (relString p) = true := by
  unfold pureDecision at h
  split at h
  case isTrue hg => exact hg
  case isFalse hg => split at h <;> exact absurd h (by simp)

theorem pureDecision_ignored {C : Cfg} {p sd d : Path}
    (h : pureDecision C p sd = .ignored d) :
    C.globalExcluder (relString p) = false ∧ ignoreWalk C p sd = some d := by
  unfold pureDecision at h
  split at h
  case isTrue hg => exact absurd h (by simp)
  case isFalse hg =>
    split at h
    case h_1 x heq =>
      injection h with h2
      subst h2
      exact ⟨by simpa using hg, heq⟩
    case h_2 => exact absurd h (by simp)

theorem pureDecision_descend {C : Cfg} {p sd : Path}
    (h : pureDecision C p sd = .descend) :
    C.globalExcluder (relString p) = false ∧ ignoreWalk C p sd = none := by
  unfold pureDecision at h
  split at h
  case isTrue hg => exact absurd h (by simp)
  case isFalse hg =>
    split at h
    case h_1 x heq => exact absurd h (by simp)
    case h_2 heq => exact ⟨by simpa using hg, heq⟩

theorem decideVisit_eq_pure {C : Cfg} {p sd : Path} {c : Nat}
    (hc : C.token c = false) : decideVisit C p sd c = pureDecision C p sd := by
  unfold decideVisit pureDecision
  rw [hc]
  simp

theorem spec_cancelled {C : Cfg} {st : CollectSt} (h : StInv C st) :
    CollectSpec C st (bumpCnt st) ⟨[], [], []⟩ :=
  ⟨stinv_bump h, by simp [bumpCnt], by simp [bumpCnt], by simp [bumpCnt],
    by simp [bumpCnt], fun pr hpr => Or.inl hpr⟩

theorem spec_excluded {C : Cfg} {st : CollectSt} {p : Path} (h : StInv C st)
    (hp : C.globalExcluder (relString p) = true) :
    CollectSpec C st (pushExcluded (bumpCnt st) p) ⟨[], [p], []⟩ := by
  refine ⟨stinv_pushExcluded (stinv_bump h) hp, ?_, ?_, ?_, ?_, ?_⟩
  · intro x
    rw [pushExcluded_fileUris]
    simp [bumpCnt]
  · intro x
    rw [pushExcluded_processed]
    simp [bumpCnt]
  · intro x
    rw [mem_pushExcluded]
    simp [bumpCnt]
  · intro x
    rw [pushExcluded_ignored]
    simp [bumpCnt]
  · intro pr hpr
    rw [pushExcluded_ignored] at hpr
    exact Or.inl hpr

theorem spec_ignored {C : Cfg} {st : CollectSt} {p d : Path} (h : StInv C st)
    (hp : C.globalExcluder (relString p) = false) :
    CollectSpec C st (pushIgnored (bumpCnt st) p d) ⟨[], [], [(p, d)]⟩ := by
  refine ⟨stinv_pushIgnored (stinv_bump h) hp, ?_, ?_, ?_, ?_, ?_⟩
  · intro x
    rw [pushIgnored_fileUris]
    simp [bumpCnt]
  · intro x
    rw [pushIgnored_processed]
    simp [bumpCnt]
  · intro x
    rw [pushIgnored_excluded]
    simp [bumpCnt]
  · intro x
    rw [mem_pushIgnored_keys]
    simp [bumpCnt]
  · intro pr hpr
    rcases mem_pushIgnored_pairs _ _ _ _ hpr with h1 | h1
    · exact Or.inl h1
    · right
      simp [h1]

theorem spec_file {C : Cfg} {st : CollectSt} {p : Path} (h : StInv C st)
    (hp : C.globalExcluder (relString p) = false) :
    CollectSpec C st (pushFile (bumpCnt st) p) ⟨[p], [], []⟩ := by
  have hiff : ∀ y, y ∈ (bumpCnt st).fileUris ↔ y ∈ (bumpCnt st).processedFilePaths :=
    h.files_iff
  refine ⟨stinv_pushFile (stinv_bump h) hp, ?_, ?_, ?_, ?_, ?_⟩
  · intro x
    rw [(mem_pushFile _ p hiff x).1]
    simp [bumpCnt]
  · intro x
    rw [(mem_pushFile _ p hiff x).2]
    simp [bumpCnt]
  · intro x
    rw [pushFile_excluded]
    simp [bumpCnt]
  · intro x
    rw [pushFile_ignored]
    simp [bumpCnt]
  · intro pr hpr
    rw [pushFile_ignored] at hpr
    exact Or.inl hpr

mutual
theorem collectFiles_spec (C : Cfg) (htok : ∀ k, C.token k = false) (n : FSNode) :
    ∀ (p : Path) (st : CollectSt), StInv C st →
      CollectSpec C st (collectFiles n C p st) (pureNode n C p) := by
  cases n with
  | file c =>
    intro p st h
    simp only [collectFiles, pureNode]
    rw [decideVisit_eq_pure (htok st.cnt)]
    cases hd : pureDecision C p p.dropLast with
    | cancelled => exact spec_cancelled h
    | excluded => exact spec_excluded h (pureDecision_excluded hd)
    | ignored d => exact spec_ignored h (pureDecision_ignored hd).1
    | descend => exact spec_file h (pureDecision_descend hd).1
  | dir cs =>
    intro p st h
    simp only [collectFiles, pureNode]
    rw [decideVisit_eq_pure (htok st.cnt)]
    cases hd : pureDecision C p p with
    | cancelled => exact spec_cancelled h
    | excluded => exact spec_excluded h (pureDecision_excluded hd)
    | ignored d => exact spec_ignored h (pureDecision_ignored hd).1
    | descend =>
      have s := collectChildren_spec C htok cs p (bumpCnt st) (stinv_bump h)
      exact ⟨s.inv, s.files, s.proc, s.excl, s.ignKeys, s.ignPairs⟩
theorem collectChildren_spec (C : Cfg) (htok : ∀ k, C.token k = false) (cs : FSList) :
    ∀ (p : Path) (st : CollectSt), StInv C st →
      CollectSpec C st (collectChildren cs C p st) (pureList cs C p) := by
  cases cs with
  | nil =>
    intro p st h
    simp only [collectChildren, pureList]
    exact ⟨h, by simp, by simp, by simp, by simp, fun pr hpr => Or.inl hpr⟩
  | cons name child rest =>
    intro p st h
    have s1 := collectFiles_spec C htok child (p ++ [name]) st h
    have s2 := collectChildren_spec C htok rest p
      (collectFiles child C (p ++ [name]) st) s1.inv
    simp only [collectChildren, pureList]
    refine ⟨s2.inv, ?_, ?_, ?_, ?_, ?_⟩
    · intro x
      rw [s2.files x, s1.files x]
      simp [List.mem_append, or_assoc]
    · intro x
      rw [s2.proc x, s1.proc x]
      simp [List.mem_append, or_assoc]
    · intro x
      rw [s2.excl x, s1.excl x]
      simp [List.mem_append, or_assoc]
    · intro x
      rw [s2.ignKeys x, s1.ignKeys x]
      simp [List.mem_append, or_assoc]
    · intro pr hpr
      rcases s2.ignPairs pr hpr with h1 | h1
      · rcases s1.ignPairs pr h1 with h2 | h2
        · exact Or.inl h2
        · exact Or.inr (List.mem_append.2 (Or.inl h2))
      · exact Or.inr (List.mem_append.2 (Or.inr h1))
end

theorem collectRoot_spec (C : Cfg) (htok : ∀ k, C.token k = false) (fs : FSNode)
    (r : Path) (st : CollectSt) (h : StInv C st) :
    CollectSpec C st (collectRoot C fs r st) (pureRoot C fs r) := by
  unfold collectRoot pureRoot
  cases resolveNode fs r with
  | some n => exact collectFiles_spec C htok n r st h
  | none => exact ⟨h, by simp, by simp, by simp, by simp, fun pr hpr => Or.inl hpr⟩

theorem or_exists_cons {α : Type} {r : α} {rest : List α} {P : Prop} {f : α → Prop} :
    ((P ∨ f r) ∨ ∃ r' ∈ rest, f r') ↔ (P ∨ ∃ r' ∈ r :: rest, f r') := by
  constructor
  · rintro ((h | h) | ⟨r', hr', h⟩)
    · exact Or.inl h
    · exact Or.inr ⟨r, List.mem_cons_self _ _, h⟩
    · exact Or.inr ⟨r', List.mem_cons_of_mem _ hr', h⟩
  · rintro (h | ⟨r', hr', h⟩)
    · exact Or.inl (Or.inl h)
    · rcases List.mem_cons.1 hr' with rfl | hr'
      · exact Or.inl (Or.inr h)
      · exact Or.inr ⟨r', hr', h⟩

theorem foldl_collectRoot_spec (C : Cfg) (htok : ∀ k, C.token k = false) (fs : FSNode)
    (uris : List Path) :
    ∀ (st : CollectSt), StInv C st →
    (∀ x, x ∈ (uris.foldl (fun s r => collectRoot C fs r s) st).fileUris ↔
        x ∈ st.fileUris ∨ ∃ r ∈ uris, x ∈ (pureRoot C fs r).files) ∧
    (∀ x, x ∈ (uris.foldl (fun s r => collectRoot C fs r s) st).excludedFiles ↔
        x ∈ st.excludedFiles ∨ ∃ r ∈ uris, x ∈ (pureRoot C fs r).excluded) ∧
    (∀ x, x ∈ (uris.foldl (fun s r => collectRoot C fs r s) st).ignoredFiles.map
        Prod.fst ↔ x ∈ st.ignoredFiles.map Prod.fst ∨
          ∃ r ∈ uris, x ∈ (pureRoot C fs r).ignored.map Prod.fst) ∧
    (∀ pr, pr ∈ (uris.foldl (fun s r => collectRoot C fs r s) st).ignoredFiles →
        pr ∈ st.ignoredFiles ∨ ∃ r ∈ uris, pr ∈ (pureRoot C fs r).ignored) := by
  induction uris with
  | nil =>
    intro st h
    simp
  | cons r rest ih =>
    intro st h
    have s1 := collectRoot_spec C htok fs r st h
    have s2 := ih (collectRoot C fs r st) s1.inv
    simp only [List.foldl_cons]
    refine ⟨?_, ?_, ?_, ?_⟩
    · intro x
      rw [s2.1 x, s1.files x]
      exact @or_exists_cons Path r rest _ (fun u => x ∈ (pureRoot C fs u).files)
    · intro x
      rw [s2.2.1 x, s1.excl x]
      exact @or_exists_cons Path r rest _ (fun u => x ∈ (pureRoot C fs u).excluded)
    · intro x
      rw [s2.2.2.1 x, s1.ignKeys x]
      exact @or_exists_cons Path r rest _
        (fun u => x ∈ (pureRoot C fs u).ignored.map Prod.fst)
    · intro pr hpr
      rcases s2.2.2.2 pr hpr with h1 | h1
      · rcases s1.ignPairs pr h1 with h2 | h2
        · exact Or.inl h2
        · exact Or.inr ⟨r, List.mem_cons_self _ _, h2⟩
      · rcases h1 with ⟨r', hr', hx⟩
        exact Or.inr ⟨r', List.mem_cons_of_mem _ hr', hx⟩

theorem mem_uniqueStartDirs_aux (fs : FSNode) (uris : List Path) :
    ∀ (acc : List Path) (sd : Path),
      sd ∈ uris.foldl (fun a r =>
        match startDirOf fs r with
        | some d => if d ∈ a then a else a ++ [d]
        | none => a) acc ↔ sd ∈ acc ∨ ∃ r ∈ uris, startDirOf fs r = some sd := by
  induction uris with
  | nil =>
    intro acc sd
    simp
  | cons r rest ih =>
    intro acc sd
    simp only [List.foldl_cons]
    rw [ih]
    cases hr : startDirOf fs r with
    | none =>
      simp only [hr]
      constructor
      · rintro (h | ⟨r', hr', h⟩)
        · exact Or.inl h
        · exact Or.inr ⟨r', List.mem_cons_of_mem _ hr', h⟩
      · rintro (h | ⟨r', hr', h⟩)
        · exact Or.inl h
        · rcases List.mem_cons.1 hr' with rfl | hr'
          · rw [hr] at h
            exact absurd h (by simp)
          · exact Or.inr ⟨r', hr', h⟩
    | some dnew =>
      simp only [hr]
      split
      case isTrue hmem =>
        constructor
        · rintro (h | ⟨r', hr', h⟩)
          · exact Or.inl h
          · exact Or.inr ⟨r', List.mem_cons_of_mem _ hr', h⟩
        · rintro (h | ⟨r', hr', h⟩)
          · exact Or.inl h
          · rcases List.mem_cons.1 hr' with rfl | hr'
            · rw [hr] at h
              injection h with h2
              subst h2
              exact Or.inl hmem
            · exact Or.inr ⟨r', hr', h⟩
      case isFalse hmem =>
        constructor
        · rintro (h | ⟨r', hr', h⟩)
          · rcases List.mem_append.1 h with h2 | h2
            · exact Or.inl h2
            · rw [List.mem_singleton] at h2
              subst h2
              exact Or.inr ⟨r, List.mem_cons_self _ _, hr⟩
          · exact Or.inr ⟨r', List.mem_cons_of_mem _ hr', h⟩
        · rintro (h | ⟨r', hr', h⟩)
          · exact Or.inl (List.mem_append.2 (Or.inl h))
          · rcases List.mem_cons.1 hr' with rfl | hr'
            · rw [hr] at h
              injection h with h2
              subst h2
              exact Or.inl (List.mem_append.2 (Or.inr (List.mem_singleton.2 rfl)))
            · exact Or.inr ⟨r', hr', h⟩

theorem mem_uniqueStartDirs (fs : FSNode) (uris : List Path) (sd : Path) :
    sd ∈ uniqueStartDirs fs uris ↔ ∃ r ∈ uris, startDirOf fs r = some sd := by
  unfold uniqueStartDirs
  rw [mem_uniqueStartDirs_aux]
  simp

theorem mem_ignoreEntriesAt {fs : FSNode} {d : Path} {e : Path × List String}
    (h : e ∈ ignoreEntriesAt fs d) : e.1.dropLast = d := by
  unfold ignoreEntriesAt at h
  rw [List.mem_filterMap] at h
  obtain ⟨name, _, he⟩ := h
  split at he
  case h_1 content heq =>
    injection he with he2
    subst he2
    exact List.dropLast_concat
  case h_2 => exact absurd he (by simp)

theorem filterMap_map_sublist {α β γ : Type} (f : α → Option β) (g : α → γ)
    (k : β → γ) (hf : ∀ a b, f a = some b → k b = g a) :
    ∀ l : List α, ((l.filterMap f).map k).Sublist (l.map g) := by
  intro l
  induction l with
  | nil => simp
  | cons a l' ih =>
    rw [List.filterMap_cons]
    cases hfa : f a with
    | none =>
      rw [List.map_cons]
      exact ih.cons _
    | some b =>
      rw [List.map_cons, List.map_cons, hf a b hfa]
      exact ih.cons₂ _

theorem ignoreEntriesAt_fst_nodup (fs : FSNode) (d : Path) :
    ((ignoreEntriesAt fs d).map Prod.fst).Nodup := by
  have hsub : ((ignoreEntriesAt fs d).map Prod.fst).Sublist
      ([".gitignore", ".filecombine"].map (fun name => d ++ [name])) := by
    apply filterMap_map_sublist
    intro a b hab
    split at hab
    case h_1 content heq =>
      injection hab with h2
      subst h2
      rfl
    case h_2 => exact absurd hab (by simp)
  refine hsub.nodup ?_
  simp

theorem entriesForDir_append (d : Path) (l1 l2 : List (Path × List String)) :
    entriesForDir d (l1 ++ l2) = entriesForDir d l1 ++ entriesForDir d l2 := by
  unfold entriesForDir
  rw [List.filter_append]

theorem entriesForDir_block_self (fs : FSNode) (d : Path) :
    entriesForDir d (ignoreEntriesAt fs d) = ignoreEntriesAt fs d := by
  unfold entriesForDir
  rw [List.filter_eq_self]
  intro e he
  rw [beq_iff_eq]
  exact mem_ignoreEntriesAt he

theorem entriesForDir_block_other (fs : FSNode) {d d' : Path} (hne : d' ≠ d) :
    entriesForDir d (ignoreEntriesAt fs d') = [] := by
  unfold entriesForDir
  rw [List.filter_eq_nil_iff]
  intro e he
  rw [beq_iff_eq, mem_ignoreEntriesAt he]
  exact hne

theorem foldl_dedupPush_skip :
    ∀ {es : List (Path × List String)} {acc : List (Path × List String)},
      (∀ e ∈ es, e.1 ∈ acc.map Prod.fst) → es.foldl dedupPush acc = acc := by
  intro es
  induction es with
  | nil => intro acc _; rfl
  | cons e rest ih =>
    intro acc h
    simp only [List.foldl_cons]
    have he : dedupPush acc e = acc := by
      unfold dedupPush
      rw [if_pos (h e (List.mem_cons_self _ _))]
    rw [he]
    exact ih (fun e' he' => h e' (List.mem_cons_of_mem _ he'))

theorem foldl_dedupPush_append :
    ∀ {es : List (Path × List String)} {acc : List (Path × List String)},
      (es.map Prod.fst).Nodup → (∀ e ∈ es, e.1 ∉ acc.map Prod.fst) →
      es.foldl dedupPush acc = acc ++ es := by
  intro es
  induction es with
  | nil => intro acc _ _; simp
  | cons e rest ih =>
    intro acc hnd h
    simp only [List.foldl_cons]
    have he : dedupPush acc e = acc ++ [e] := by
      unfold dedupPush
      rw [if_neg (h e (List.mem_cons_self _ _))]
    rw [he]
    rw [List.map_cons, List.nodup_cons] at hnd
    have h' : ∀ e' ∈ rest, e'.1 ∉ (acc ++ [e]).map Prod.fst := by
      intro e' he' hmem
      rw [List.map_append] at hmem
      rcases List.mem_append.1 hmem with h2 | h2
      · exact h e' (List.mem_cons_of_mem _ he') h2
      · simp only [List.map_cons, List.map_nil, List.mem_singleton] at h2
        exact hnd.1 (h2 ▸ List.mem_map_of_mem Prod.fst he')
    rw [ih hnd.2 h']
    simp

theorem block_skip (fs : FSNode) (d : Path) (acc : List (Path × List String))
    (hfull : entriesForDir d acc = ignoreEntriesAt fs d) :
    (ignoreEntriesAt fs d).foldl dedupPush acc = acc := by
  apply foldl_dedupPush_skip
  intro e he
  rw [← hfull] at he
  exact List.mem_map_of_mem Prod.fst (List.mem_of_mem_filter he)

theorem block_new (fs : FSNode) (d : Path) (acc : List (Path × List String))
    (hempty : entriesForDir d acc = []) :
    (ignoreEntriesAt fs d).foldl dedupPush acc = acc ++ ignoreEntriesAt fs d := by
  apply foldl_dedupPush_append (ignoreEntriesAt_fst_nodup fs d)
  intro e he hmem
  rw [List.mem_map] at hmem
  obtain ⟨a, ha, hfst⟩ := hmem
  have hmem2 : a ∈ entriesForDir d acc := by
    unfold entriesForDir
    rw [List.mem_filter]
    refine ⟨ha, ?_⟩
    rw [beq_iff_eq, hfst, mem_ignoreEntriesAt he]
  rw [hempty] at hmem2
  exact absurd hmem2 (by simp)

theorem foldl_over_flatMap {α β γ : Type} (g : α → List β) (f : γ → β → γ)
    (l : List α) :
    ∀ (init : γ), (l.flatMap g).foldl f init =
      l.foldl (fun acc a => (g a).foldl f acc) init := by
  induction l with
  | nil => intro init; rfl
  | cons a l' ih =>
    intro init
    rw [List.flatMap_cons, List.foldl_append, List.foldl_cons]
    exact ih _

theorem chainFold_char (fs : FSNode) (ds : List Path) :
    ∀ (P : Path → Prop) (acc : List (Path × List String)),
      (∀ d, (P d → entriesForDir d acc = ignoreEntriesAt fs d) ∧
        (¬P d → entriesForDir d acc = [])) →
      ∀ d, ((P d ∨ d ∈ ds) →
          entriesForDir d (ds.foldl
            (fun a dd => (ignoreEntriesAt fs dd).foldl dedupPush a) acc) =
            ignoreEntriesAt fs d) ∧
        (¬(P d ∨ d ∈ ds) →
          entriesForDir d (ds.foldl
            (fun a dd => (ignoreEntriesAt fs dd).foldl dedupPush a) acc) = []) := by
  induction ds with
  | nil =>
    intro P acc hQ d
    simp only [List.foldl_nil, List.not_mem_nil, or_false]
    exact hQ d
  | cons dd rest ih =>
    intro P acc hQ d
    simp only [List.foldl_cons]
    have hmain : ∀ d', ((P d' ∨ d' = dd) →
        entriesForDir d' ((ignoreEntriesAt fs dd).foldl dedupPush acc) =
          ignoreEntriesAt fs d') ∧
        (¬(P d' ∨ d' = dd) →
          entriesForDir d' ((ignoreEntriesAt fs dd).foldl dedupPush acc) = []) := by
      rcases Classical.em (P dd) with hPdd | hPdd
      · rw [block_skip fs dd acc ((hQ dd).1 hPdd)]
        intro d'
        constructor
        · rintro (h | rfl)
          · exact (hQ d').1 h
          · exact (hQ d').1 hPdd
        · intro h
          exact (hQ d').2 (fun hp => h (Or.inl hp))
      · rw [block_new fs dd acc ((hQ dd).2 hPdd)]
        intro d'
        constructor
        · rintro (h | rfl)
          · have hne : d' ≠ dd := fun he => hPdd (he ▸ h)
            rw [entriesForDir_append, (hQ d').1 h,
              entriesForDir_block_other fs (fun he => hne he.symm)]
            simp
          · rw [entriesForDir_append, (hQ d').2 hPdd, entriesForDir_block_self]
            simp
        · intro h
          have hne : d' ≠ dd := fun he => h (Or.inr he)
          rw [entriesForDir_append, (hQ d').2 (fun hp => h (Or.inl hp)),
            entriesForDir_block_other fs (fun he => hne he.symm)]
          simp
    have hres := ih (fun d' => P d' ∨ d' = dd)
      ((ignoreEntriesAt fs dd).foldl dedupPush acc) hmain d
    constructor
    · intro hcond
      apply hres.1
      rcases hcond with h | h
      · exact Or.inl (Or.inl h)
      · rcases List.mem_cons.1 h with rfl | h
        · exact Or.inl (Or.inr rfl)
        · exact Or.inr h
    · intro hcond
      apply hres.2
      rintro ((h | rfl) | h)
      · exact hcond (Or.inl h)
      · exact hcond (Or.inr (List.mem_cons_self _ _))
      · exact hcond (Or.inr (List.mem_cons_of_mem _ h))

theorem allRelevant_char (fs : FSNode) (uris : List Path) (d : Path) :
    (d ∈ chainDirs fs uris →
      entriesForDir d (allRelevantIgnoreFiles fs uris) = ignoreEntriesAt fs d) ∧
    (d ∉ chainDirs fs uris →
      entriesForDir d (allRelevantIgnoreFiles fs uris) = []) := by
  have hrw : allRelevantIgnoreFiles fs uris =
      (chainDirs fs uris).foldl
        (fun a dd => (ignoreEntriesAt fs dd).foldl dedupPush a) [] := by
    unfold allRelevantIgnoreFiles chainDirs getAllRelevantIgnoreFiles
    rw [foldl_over_flatMap]
    congr 1
    funext acc sd
    rw [foldl_over_flatMap]
  rw [hrw]
  have h := chainFold_char fs (chainDirs fs uris) (fun _ => False) []
    (fun d' => ⟨fun hf => absurd hf (by simp), fun _ => rfl⟩) d
  constructor
  · intro hd
    exact h.1 (Or.inr hd)
  · intro hd
    apply h.2
    rintro (hf | hmem)
    · exact hf
    · exact hd hmem

theorem find?_map_update (d : Path) (e2 : List String) :
    ∀ (m : List (Path × List String)),
      (m.map (fun kv => if kv.1 == d then (kv.1, kv.2 ++ e2) else kv)).find?
          (fun kv => kv.1 == d) =
        (m.find? (fun kv => kv.1 == d)).map (fun kv => (kv.1, kv.2 ++ e2)) := by
  intro m
  induction m with
  | nil => rfl
  | cons a rest ih =>
    by_cases had : (a.1 == d) = true
    · simp only [List.map_cons, if_pos had, List.find?_cons]
      simp [had]
    · simp only [List.map_cons, if_neg had, List.find?_cons]
      rw [Bool.not_eq_true] at had
      simp only [had]
      exact ih

theorem find?_map_update_ne (d d' : Path) (e2 : List String) (hne : d' ≠ d) :
    ∀ (m : List (Path × List String)),
      (m.map (fun kv => if kv.1 == d' then (kv.1, kv.2 ++ e2) else kv)).find?
          (fun kv => kv.1 == d) = m.find? (fun kv => kv.1 == d) := by
  intro m
  induction m with
  | nil => rfl
  | cons a rest ih =>
    by_cases hae : (a.1 == d') = true
    · have had : (a.1 == d) = false := by
        rw [beq_eq_false_iff_ne]
        rw [beq_iff_eq] at hae
        rw [hae]; exact hne
      simp only [List.map_cons, if_pos hae, List.find?_cons]
      have had' : (((a.1, a.2 ++ e2) : Path × List String).1 == d) = false := had
      simp only [had, had']
      exact ih
    · simp only [List.map_cons, if_neg hae, List.find?_cons]
      by_cases had : (a.1 == d) = true
      · simp [had]
      · rw [Bool.not_eq_true] at had
        simp only [had]
        exact ih

theorem lookupCompiled_addCompiled_same (m : List (Path × List String))
    {e : Path × List String} {d : Path} (h : e.1.dropLast = d) :
    lookupCompiled (addCompiled m e) d =
      match lookupCompiled m d with
      | some v => some (v ++ e.2)
      | none => some e.2 := by
  unfold addCompiled lookupCompiled
  rw [h]
  cases hf : m.find? (fun kv => kv.1 == d) with
  | none =>
    simp only [hf, Option.map_none]
    rw [List.find?_append, hf]
    simp [List.find?_cons]
  | some kv0 =>
    simp only [hf, Option.map_some]
    rw [find?_map_update d e.2 m, hf]
    rfl

theorem lookupCompiled_addCompiled_other (m : List (Path × List String))
    {e : Path × List String} {d : Path} (h : e.1.dropLast ≠ d) :
    lookupCompiled (addCompiled m e) d = lookupCompiled m d := by
  unfold addCompiled lookupCompiled
  cases hf : m.find? (fun kv => kv.1 == e.1.dropLast) with
  | none =>
    simp only [hf]
    rw [List.find?_append]
    cases hfd : m.find? (fun kv => kv.1 == d) with
    | some v => simp
    | none =>
      have h1 : (((e.1.dropLast, e.2) : Path × List String) :: []).find?
          (fun kv => kv.1 == d) = none := by
        simp [List.find?_cons, beq_eq_false_iff_ne, h]
      simp [h1]
  | some kv0 =>
    simp only [hf]
    rw [find?_map_update_ne d e.1.dropLast e.2 h m]

theorem lookupCompiled_foldl_addCompiled (d : Path) :
    ∀ (es : List (Path × List String)) (m : List (Path × List String)),
      lookupCompiled (es.foldl addCompiled m) d =
        combineOpt (lookupCompiled m d) (entriesForDir d es) := by
  intro es
  induction es with
  | nil =>
    intro m
    show lookupCompiled m d = combineOpt (lookupCompiled m d) []
    cases lookupCompiled m d <;> simp [combineOpt]
  | cons e rest ih =>
    intro m
    rw [List.foldl_cons, ih]
    by_cases hmatch : e.1.dropLast = d
    · rw [lookupCompiled_addCompiled_same m hmatch]
      have hfd : entriesForDir d (e :: rest) = e :: entriesForDir d rest := by
        unfold entriesForDir
        rw [List.filter_cons_of_pos (by simpa using hmatch)]
      rw [hfd]
      cases lookupCompiled m d with
      | none =>
        simp only [combineOpt]
        rw [if_neg (by simp)]
        cases hre : entriesForDir d rest with
        | nil => simp
        | cons x xs => simp
      | some v => simp [combineOpt]
    · rw [lookupCompiled_addCompiled_other m hmatch]
      have hfd : entriesForDir d (e :: rest) = entriesForDir d rest := by
        unfold entriesForDir
        rw [List.filter_cons_of_neg (by simpa using hmatch)]
      rw [hfd]

theorem coveredBy_iff (fs : FSNode) (uris : List Path) (d : Path) :
    coveredBy fs uris d = true ↔ d ∈ chainDirs fs uris := by
  unfold coveredBy chainDirs
  rw [List.any_eq_true, List.mem_flatMap]
  constructor
  · rintro ⟨r, hr, hcond⟩
    cases hsd : startDirOf fs r with
    | none => rw [hsd] at hcond; exact absurd hcond (by simp)
    | some sd =>
      rw [hsd] at hcond
      simp only [decide_eq_true_eq] at hcond
      exact ⟨sd, (mem_uniqueStartDirs fs uris sd).2 ⟨r, hr, hsd⟩, hcond⟩
  · rintro ⟨sd, hsd, hmem⟩
    obtain ⟨r, hr, hstart⟩ := (mem_uniqueStartDirs fs uris sd).1 hsd
    refine ⟨r, hr, ?_⟩
    rw [hstart]
    simpa using hmem

theorem lookupCompiled_canon (fs : FSNode) (uris : List Path) (d : Path) :
    lookupCompiled (compiledIgnoresOf fs uris) d = canonLookup fs uris d := by
  unfold compiledIgnoresOf canonLookup
  rw [lookupCompiled_foldl_addCompiled]
  have hnone : lookupCompiled [] d = none := rfl
  rw [hnone]
  by_cases hcov : d ∈ chainDirs fs uris
  · rw [(allRelevant_char fs uris d).1 hcov]
    have hc : coveredBy fs uris d = true := (coveredBy_iff fs uris d).2 hcov
    rw [hc]
    simp only [combineOpt, Bool.true_and]
    cases hemp : (ignoreEntriesAt fs d).isEmpty with
    | true => simp
    | false => simp
  · rw [(allRelevant_char fs uris d).2 hcov]
    have hc : coveredBy fs uris d = false := by
      cases h : coveredBy fs uris d with
      | false => rfl
      | true => exact absurd ((coveredBy_iff fs uris d).1 h) hcov
    rw [hc]
    simp [combineOpt]

/-- C9: the compiled ignore map of a run holds matchers only for directories
on the upward ancestor chain (up to the workspace root) of some selected
root's starting directory, and the matcher for such a directory is compiled
exactly from the patterns of the ignore files physically present in that
directory — so an ignore file strictly below every selected root is never
read and never contributes rules. -/
theorem compiled_matchers_on_ancestor_chains (fs : FSNode) (uris : List Path)
    (d : Path) (h : lookupCompiled (compiledIgnoresOf fs uris) d ≠ none) :
    (∃ r ∈ uris, ∃ sd, startDirOf fs r = some sd ∧ d ∈ ancestorChain sd) ∧
    lookupCompiled (compiledIgnoresOf fs uris) d =
      some ((ignoreEntriesAt fs d).flatMap Prod.snd) := by
  rw [lookupCompiled_canon] at h ⊢
  unfold canonLookup at h ⊢
  by_cases hc : (coveredBy fs uris d && !(ignoreEntriesAt fs d).isEmpty) = true
  · refine ⟨?_, by rw [if_pos hc]⟩
    rw [Bool.and_eq_true] at hc
    have hmem := (coveredBy_iff fs uris d).1 hc.1
    unfold chainDirs at hmem
    rw [List.mem_flatMap] at hmem
    obtain ⟨sd, hsd, hmem⟩ := hmem
    obtain ⟨r, hr, hstart⟩ := (mem_uniqueStartDirs fs uris sd).1 hsd
    exact ⟨r, hr, sd, hstart, hmem⟩
  · rw [if_neg hc] at h
    exact absurd rfl h

theorem compiled_matchers_on_ancestor_chains_witness :
    lookupCompiled (compiledIgnoresOf fsW [["sub"]]) ["sub"] ≠ none ∧
    ((∃ r ∈ [["sub"]], ∃ sd, startDirOf fsW r = some sd ∧
        ["sub"] ∈ ancestorChain sd) ∧
      lookupCompiled (compiledIgnoresOf fsW [["sub"]]) ["sub"] =
        some ((ignoreEntriesAt fsW ["sub"]).flatMap Prod.snd)) :=
  ⟨by decide, compiled_matchers_on_ancestor_chains fsW [["sub"]] ["sub"] (by decide)⟩

theorem finalize_doc_cases (C : Cfg) (ps : ProcessSt) :
    (finalize C ps).1 = none ∨
      (C.token ((finalize C ps).2 - 1) = false ∧ 0 < (finalize C ps).2) := by
  unfold finalize
  by_cases h1 : ps.aborted = true
  · rw [if_pos h1]
    exact Or.inl rfl
  · rw [if_neg h1]
    by_cases h2 : C.token ps.cnt = true
    · rw [if_pos h2]
      exact Or.inl rfl
    · rw [if_neg h2]
      rw [Bool.not_eq_true] at h2
      by_cases h3 : (ps.processedFiles == 0) = true
      · rw [if_pos h3]
        exact Or.inl rfl
      · rw [if_neg h3]
        refine Or.inr ⟨?_, ?_⟩
        · show C.token (ps.cnt + 1 - 1) = false
          rw [Nat.add_sub_cancel]
          exact h2
        · show 0 < ps.cnt + 1
          exact Nat.succ_pos _

theorem combineFiles_doc_checks (fs : FSNode) (i : List String → String → Bool)
    (g : String → Bool) (x : String → String → Bool) (f : Nat → String)
    (tk : Nat → Bool) (uris : List Path) :
    (combineFiles fs i g x f tk uris).doc = none ∨
      (tk ((combineFiles fs i g x f tk uris).checks - 1) = false ∧
        0 < (combineFiles fs i g x f tk uris).checks) := by
  have h := finalize_doc_cases (mkCfg fs uris i g x f tk)
    (processLoop (mkCfg fs uris i g x f tk) fs
      (uris.foldl (fun st r => collectRoot (mkCfg fs uris i g x f tk) fs r st)
        ⟨0, [], [], [], []⟩).fileUris
      ⟨(uris.foldl (fun st r => collectRoot (mkCfg fs uris i g x f tk) fs r st)
        ⟨0, [], [], [], []⟩).cnt, [], [], "", 0, 0, 0, false⟩)
  exact h

/-- C7: cooperative cancellation.  The embedding advances the check counter at
every recursive `collectFiles` visit, before every file of the processing
loop, and at the final pre-assembly check, so `checks` counts exactly the
cancellation checks performed.  For a real (monotone) cancellation token that
is requested at or before one of the performed checks, the run emits no final
document. -/
theorem cancellation_no_document (fs : FSNode) (i : List String → String → Bool)
    (g : String → Bool) (x : String → String → Bool) (f : Nat → String)
    (tk : Nat → Bool) (uris : List Path)
    (hmono : ∀ m n, m ≤ n → tk m = true → tk n = true)
    (t : Nat) (ht : tk t = true)
    (hlt : t < (combineFiles fs i g x f tk uris).checks) :
    (combineFiles fs i g x f tk uris).doc = none := by
  rcases combineFiles_doc_checks fs i g x f tk uris with h | ⟨htok, _⟩
  · exact h
  · exfalso
    have hle : t ≤ (combineFiles fs i g x f tk uris).checks - 1 :=
      Nat.le_pred_of_lt hlt
    have := hmono t _ hle ht
    rw [htok] at this
    exact Bool.false_ne_true this

theorem cancellation_no_document_witness :
    (∀ m n : Nat, m ≤ n → tokenAlways m = true → tokenAlways n = true) ∧
    tokenAlways 0 = true ∧
    0 < (combineFiles fsW ignMem gexPng isTextAll fmtNone tokenAlways [["a.txt"]]).checks ∧
    (combineFiles fsW ignMem gexPng isTextAll fmtNone tokenAlways [["a.txt"]]).doc = none :=
  ⟨fun _ _ _ h => h, rfl, by decide,
    cancellation_no_document fsW ignMem gexPng isTextAll fmtNone tokenAlways
      [["a.txt"]] (fun _ _ _ h => h) 0 rfl (by decide)⟩

theorem resolveNode_snoc (name : String) :
    ∀ (p : Path) (n : FSNode),
      resolveNode n (p ++ [name]) =
        match resolveNode n p with
        | some (.dir cs) => findChild cs name
        | _ => none := by
  intro p
  induction p with
  | nil =>
    intro n
    cases n with
    | file c => rfl
    | dir cs =>
      show (match findChild cs name with
            | some c => resolveNode c []
            | none => none) = findChild cs name
      cases findChild cs name with
      | none => rfl
      | some c => rfl
  | cons x rest ih =>
    intro n
    cases n with
    | file c => rfl
    | dir cs =>
      show (match findChild cs x with
            | some c => resolveNode c (rest ++ [name])
            | none => none) =
        (match (match findChild cs x with
                | some c => resolveNode c rest
                | none => none) with
         | some (.dir cs2) => findChild cs2 name
         | _ => none)
      cases findChild cs x with
      | none => rfl
      | some c => exact ih c

theorem entries_fst_mem_names : ∀ (cs : FSList) (name : String) (c : FSNode),
    (name, c) ∈ cs.entries → name ∈ cs.names
  | .nil, name, c, h => absurd h (by simp [FSList.entries])
  | .cons nm node rest, name, c, h => by
    rcases List.mem_cons.1 h with he | he
    · injection he with h1 _
      rw [h1]
      exact List.mem_cons_self _ _
    · exact List.mem_cons_of_mem _ (entries_fst_mem_names rest name c he)

theorem findChild_of_entries : ∀ (cs : FSList) (name : String) (c : FSNode),
    nodupB cs.names = true → (name, c) ∈ cs.entries → findChild cs name = some c
  | .nil, name, c, _, h => absurd h (by simp [FSList.entries])
  | .cons nm node rest, name, c, hnd, h => by
    have hnd2 : (!(FSList.names rest).contains nm && nodupB (FSList.names rest)) = true := hnd
    rw [Bool.and_eq_true] at hnd2
    obtain ⟨hn1, hn2⟩ := hnd2
    rcases List.mem_cons.1 h with he | he
    · injection he with h1 h2
      unfold findChild
      rw [if_pos (by rw [h1]; simp)]
      rw [h2]
    · have hne : nm ≠ name := by
        intro heq
        have hmem := entries_fst_mem_names rest name c he
        rw [← heq] at hmem
        have hc : (FSList.names rest).contains nm = true := by simpa using hmem
        rw [hc] at hn1
        exact absurd hn1 (by simp)
      unfold findChild
      rw [if_neg (by simpa using hne)]
      exact findChild_of_entries rest name c hn2 he

theorem findChild_wf : ∀ (cs : FSList) (name : String) (c : FSNode),
    wfList cs = true → findChild cs name = some c → wfNode c = true
  | .nil, name, c, _, h => absurd h (by simp [findChild])
  | .cons nm node rest, name, c, hwf, h => by
    unfold wfList at hwf
    rw [Bool.and_eq_true] at hwf
    unfold findChild at h
    split at h
    · injection h with h2
      rw [← h2]
      exact hwf.1
    · exact findChild_wf rest name c hwf.2 h

theorem resolveNode_wf : ∀ (p : Path) (n m : FSNode),
    wfNode n = true → resolveNode n p = some m → wfNode m = true := by
  intro p
  induction p with
  | nil =>
    intro n m hwf h
    injection h with h
    rw [← h]
    exact hwf
  | cons x rest ih =>
    intro n m hwf h
    cases n with
    | file c => exact absurd h (by simp [resolveNode])
    | dir cs =>
      have h2 : (match findChild cs x with
                 | some c => resolveNode c rest
                 | none => none) = some m := h
      unfold wfNode at hwf
      rw [Bool.and_eq_true] at hwf
      cases hfc : findChild cs x with
      | none => rw [hfc] at h2; exact absurd h2 (by simp)
      | some child =>
        rw [hfc] at h2
        exact ih child m (findChild_wf cs x child hwf.2 hfc) h2

mutual
theorem pureNode_coh (C : Cfg) (fs : FSNode) (hwf : wfNode fs = true) :
    ∀ (n : FSNode), ∀ (p : Path), resolveNode fs p = some n →
      ∀ pr ∈ (pureNode n C p).ignored, walkAt C fs pr.1 = some pr.2
  | .file content, p, hres, pr, hpr => by
    have hdef : (pureNode (.file content) C p) =
        (match pureDecision C p p.dropLast with
         | .cancelled => (⟨[], [], []⟩ : PureOut)
         | .excluded => ⟨[], [p], []⟩
         | .ignored d => ⟨[], [], [(p, d)]⟩
         | .descend => ⟨[p], [], []⟩) := rfl
    rw [hdef] at hpr
    cases hd : pureDecision C p p.dropLast with
    | cancelled => rw [hd] at hpr; exact absurd hpr (by simp)
    | excluded => rw [hd] at hpr; exact absurd hpr (by simp)
    | descend => rw [hd] at hpr; exact absurd hpr (by simp)
    | ignored d =>
      rw [hd] at hpr
      rw [List.mem_singleton] at hpr
      subst hpr
      unfold walkAt
      rw [hres]
      exact (pureDecision_ignored hd).2
  | .dir cs, p, hres, pr, hpr => by
    have hdef : (pureNode (.dir cs) C p) =
        (match pureDecision C p p with
         | .cancelled => (⟨[], [], []⟩ : PureOut)
         | .excluded => ⟨[], [p], []⟩
         | .ignored d => ⟨[], [], [(p, d)]⟩
         | .descend => pureList cs C p) := rfl
    rw [hdef] at hpr
    cases hd : pureDecision C p p with
    | cancelled => rw [hd] at hpr; exact absurd hpr (by simp)
    | excluded => rw [hd] at hpr; exact absurd hpr (by simp)
    | ignored d =>
      rw [hd] at hpr
      rw [List.mem_singleton] at hpr
      subst hpr
      unfold walkAt
      rw [hres]
      exact (pureDecision_ignored hd).2
    | descend =>
      rw [hd] at hpr
      exact pureList_coh C fs hwf cs p cs hres (fun e he => he) pr hpr

theorem pureList_coh (C : Cfg) (fs : FSNode) (hwf : wfNode fs = true) :
    ∀ (l : FSList), ∀ (p : Path) (cs : FSList),
      resolveNode fs p = some (.dir cs) →
      (∀ e ∈ FSList.entries l, e ∈ FSList.entries cs) →
      ∀ pr ∈ (pureList l C p).ignored, walkAt C fs pr.1 = some pr.2
  | .nil, p, cs, hres, hsub, pr, hpr => absurd hpr (by simp [pureList])
  | .cons name child rest, p, cs, hres, hsub, pr, hpr => by
    have hdef : (pureList (.cons name child rest) C p).ignored =
        (pureNode child C (p ++ [name])).ignored ++ (pureList rest C p).ignored := rfl
    rw [hdef] at hpr
    rcases List.mem_append.1 hpr with h | h
    · have hwfd : wfNode (.dir cs) = true := resolveNode_wf p fs (.dir cs) hwf hres
      have hnd : nodupB cs.names = true := by
        unfold wfNode at hwfd
        rw [Bool.and_eq_true] at hwfd
        exact hwfd.1
      have hent : (name, child) ∈ FSList.entries cs :=
        hsub (name, child) (List.mem_cons_self _ _)
      have hres2 : resolveNode fs (p ++ [name]) = some child := by
        rw [resolveNode_snoc name p fs, hres]
        exact findChild_of_entries cs name child hnd hent
      exact pureNode_coh C fs hwf child (p ++ [name]) hres2 pr h
    · exact pureList_coh C fs hwf rest p cs hres
        (fun e he => hsub e (List.mem_cons_of_mem _ he)) pr h
end

theorem foldl_collectRoot_coherent (C : Cfg) (htok : ∀ k, C.token k = false)
    (fs : FSNode) (hwf : wfNode fs = true) (uris : List Path) :
    ∀ pr ∈ (uris.foldl (fun s r => collectRoot C fs r s)
        (⟨0, [], [], [], []⟩ : CollectSt)).ignoredFiles,
      walkAt C fs pr.1 = some pr.2 := by
  intro pr hpr
  rcases (foldl_collectRoot_spec C htok fs uris ⟨0, [], [], [], []⟩
      (stinv_empty C)).2.2.2 pr hpr with h | ⟨r, _, h⟩
  · exact absurd h (by simp)
  · unfold pureRoot at h
    cases hres : resolveNode fs r with
    | none => rw [hres] at h; exact absurd h (by simp)
    | some n =>
      rw [hres] at h
      exact pureNode_coh C fs hwf n r hres pr h

theorem any_perm {α : Type} {l l' : List α} (h : l.Perm l') (f : α → Bool) :
    l.any f = l'.any f := by
  cases ha : l.any f with
  | true =>
    rw [List.any_eq_true] at ha
    obtain ⟨a, hal, haf⟩ := ha
    exact ((List.any_eq_true).2 ⟨a, h.mem_iff.1 hal, haf⟩).symm
  | false =>
    cases hb : l'.any f with
    | false => rfl
    | true =>
      rw [List.any_eq_true] at hb
      obtain ⟨a, hal, haf⟩ := hb
      have h2 := (List.any_eq_true).2 ⟨a, h.mem_iff.2 hal, haf⟩
      rw [h2] at ha
      exact absurd ha (by simp)

theorem coveredBy_perm {fs : FSNode} {uris uris' : List Path}
    (hperm : uris.Perm uris') (d : Path) :
    coveredBy fs uris d = coveredBy fs uris' d := by
  unfold coveredBy
  exact any_perm hperm _

theorem canonLookup_perm {fs : FSNode} {uris uris' : List Path}
    (hperm : uris.Perm uris') (d : Path) :
    canonLookup fs uris d = canonLookup fs uris' d := by
  unfold canonLookup
  rw [coveredBy_perm hperm d]

theorem mkCfg_perm (fs : FSNode) (i : List String → String → Bool)
    (g : String → Bool) (x : String → String → Bool) (f : Nat → String)
    (tk : Nat → Bool) {uris uris' : List Path} (hperm : uris.Perm uris') :
    mkCfg fs uris i g x f tk = mkCfg fs uris' i g x f tk := by
  unfold mkCfg
  have hfun : lookupCompiled (compiledIgnoresOf fs uris) =
      lookupCompiled (compiledIgnoresOf fs uris') := by
    funext d
    rw [lookupCompiled_canon, lookupCompiled_canon, canonLookup_perm hperm d]
  rw [hfun]

theorem exists_mem_perm {α : Type} {l l' : List α} (h : l.Perm l') (f : α → Prop) :
    (∃ r ∈ l, f r) ↔ ∃ r ∈ l', f r := by
  constructor
  · rintro ⟨r, hr, hf⟩
    exact ⟨r, h.mem_iff.1 hr, hf⟩
  · rintro ⟨r, hr, hf⟩
    exact ⟨r, h.mem_iff.2 hr, hf⟩

theorem processFile_textFile_path {C : Cfg} {fs : FSNode} {p rp : Path}
    {frag : String} {sz tks : Nat}
    (h : processFile C fs p = .textFile frag rp sz tks) : rp = p := by
  unfold processFile at h
  cases hres : resolveNode fs p with
  | none => rw [hres] at h; exact absurd h (by simp)
  | some n =>
    cases n with
    | dir cs => rw [hres] at h; exact absurd h (by simp)
    | file content =>
      rw [hres] at h
      dsimp only [] at h
      by_cases hit : C.isText (basenameOf p) content = true
      · rw [if_pos hit] at h
        injection h with h1 h2 h3 h4
        exact h2.symm
      · rw [if_neg hit] at h
        exact absurd h (by simp)

theorem processLoop_mem (C : Cfg) (htok : ∀ k, C.token k = false) (fs : FSNode) :
    ∀ (files : List Path) (ps : ProcessSt),
      (∀ q, q ∈ (processLoop C fs files ps).binaryFiles ↔
          q ∈ ps.binaryFiles ∨ (q ∈ files ∧ processFile C fs q = .binaryFile)) ∧
      (∀ q, q ∈ (processLoop C fs files ps).processedPaths ↔
          q ∈ ps.processedPaths ∨ (q ∈ files ∧
            ∃ frag sz tks, processFile C fs q = .textFile frag q sz tks)) := by
  intro files
  induction files with
  | nil =>
    intro ps
    constructor <;> intro q <;> simp [processLoop]
  | cons p rest ih =>
    intro ps
    have hif : processLoop C fs (p :: rest) ps =
        (match processFile C fs p with
         | .binaryFile => processLoop C fs rest { ps with
             cnt := ps.cnt + 1,
             binaryFiles := ps.binaryFiles ++ [p] }
         | .readError => processLoop C fs rest { ps with cnt := ps.cnt + 1 }
         | .textFile frag rp size toks => processLoop C fs rest { ps with
             cnt := ps.cnt + 1,
             processedPaths := ps.processedPaths ++ [rp],
             combinedContent := ps.combinedContent ++ frag,
             processedFiles := ps.processedFiles + 1,
             totalSize := ps.totalSize + size,
             estTokens := ps.estTokens + toks }) := by
      simp only [processLoop, htok ps.cnt, Bool.false_eq_true, if_false]
    rw [hif]
    cases hpf : processFile C fs p with
    | binaryFile =>
      simp only []
      constructor
      · intro q
        rw [(ih _).1 q]
        dsimp only []
        constructor
        · rintro (hb | ⟨hq, hpb⟩)
          · rcases List.mem_append.1 hb with hb | hb
            · exact Or.inl hb
            · rw [List.mem_singleton] at hb
              subst hb
              exact Or.inr ⟨List.mem_cons_self _ _, hpf⟩
          · exact Or.inr ⟨List.mem_cons_of_mem _ hq, hpb⟩
        · rintro (hb | ⟨hq, hpb⟩)
          · exact Or.inl (List.mem_append.2 (Or.inl hb))
          · rcases List.mem_cons.1 hq with rfl | hq
            · exact Or.inl (List.mem_append.2 (Or.inr (List.mem_singleton.2 rfl)))
            · exact Or.inr ⟨hq, hpb⟩
      · intro q
        rw [(ih _).2 q]
        dsimp only []
        constructor
        · rintro (hb | ⟨hq, hpb⟩)
          · exact Or.inl hb
          · exact Or.inr ⟨List.mem_cons_of_mem _ hq, hpb⟩
        · rintro (hb | ⟨hq, hpb⟩)
          · exact Or.inl hb
          · rcases List.mem_cons.1 hq with rfl | hq
            · obtain ⟨frag, sz, tks, hpb⟩ := hpb
              rw [hpf] at hpb
              exact absurd hpb (by simp)
            · exact Or.inr ⟨hq, hpb⟩
    | readError =>
      simp only []
      constructor
      · intro q
        rw [(ih _).1 q]
        constructor
        · rintro (hb | ⟨hq, hpb⟩)
          · exact Or.inl hb
          · exact Or.inr ⟨List.mem_cons_of_mem _ hq, hpb⟩
        · rintro (hb | ⟨hq, hpb⟩)
          · exact Or.inl hb
          · rcases List.mem_cons.1 hq with rfl | hq
            · rw [hpf] at hpb
              exact absurd hpb (by simp)
            · exact Or.inr ⟨hq, hpb⟩
      · intro q
        rw [(ih _).2 q]
        constructor
        · rintro (hb | ⟨hq, hpb⟩)
          · exact Or.inl hb
          · exact Or.inr ⟨List.mem_cons_of_mem _ hq, hpb⟩
        · rintro (hb | ⟨hq, hpb⟩)
          · exact Or.inl hb
          · rcases List.mem_cons.1 hq with rfl | hq
            · obtain ⟨frag, sz, tks, hpb⟩ := hpb
              rw [hpf] at hpb
              exact absurd hpb (by simp)
            · exact Or.inr ⟨hq, hpb⟩
    | textFile frag rp size toks =>
      have hrp : rp = p := processFile_textFile_path hpf
      subst hrp
      simp only []
      constructor
      · intro q
        rw [(ih _).1 q]
        dsimp only []
        constructor
        · rintro (hb | ⟨hq, hpb⟩)
          · exact Or.inl hb
          · exact Or.inr ⟨List.mem_cons_of_mem _ hq, hpb⟩
        · rintro (hb | ⟨hq, hpb⟩)
          · exact Or.inl hb
          · rcases List.mem_cons.1 hq with rfl | hq
            · rw [hpf] at hpb
              exact absurd hpb (by simp)
            · exact Or.inr ⟨hq, hpb⟩
      · intro q
        rw [(ih _).2 q]
        dsimp only []
        constructor
        · rintro (hb | ⟨hq, hpb⟩)
          · rcases List.mem_append.1 hb with hb | hb
            · exact Or.inl hb
            · rw [List.mem_singleton] at hb
              subst hb
              exact Or.inr ⟨List.mem_cons_self _ _, frag, size, toks, hpf⟩
          · exact Or.inr ⟨List.mem_cons_of_mem _ hq, hpb⟩
        · rintro (hb | ⟨hq, hpb⟩)
          · exact Or.inl (List.mem_append.2 (Or.inl hb))
          · rcases List.mem_cons.1 hq with rfl | hq
            · exact Or.inl (List.mem_append.2 (Or.inr (List.mem_singleton.2 rfl)))
            · exact Or.inr ⟨hq, hpb⟩

theorem combineFiles_mem_char (fs : FSNode) (i : List String → String → Bool)
    (g : String → Bool) (x : String → String → Bool) (f : Nat → String)
    (uris : List Path) (C : Cfg) (hC : C = mkCfg fs uris i g x f noCancel) :
    (∀ q, q ∈ (combineFiles fs i g x f noCancel uris).fileUris ↔
        ∃ r ∈ uris, q ∈ (pureRoot C fs r).files) ∧
    (∀ q, q ∈ (combineFiles fs i g x f noCancel uris).excludedFiles ↔
        ∃ r ∈ uris, q ∈ (pureRoot C fs r).excluded) ∧
    (∀ k, k ∈ (combineFiles fs i g x f noCancel uris).ignoredFiles.map Prod.fst ↔
        ∃ r ∈ uris, k ∈ (pureRoot C fs r).ignored.map Prod.fst) ∧
    (∀ pr ∈ (combineFiles fs i g x f noCancel uris).ignoredFiles,
        ∃ r ∈ uris, pr ∈ (pureRoot C fs r).ignored) ∧
    (wfNode fs = true → ∀ pr ∈ (combineFiles fs i g x f noCancel uris).ignoredFiles,
        walkAt C fs pr.1 = some pr.2) ∧
    (∀ q, q ∈ (combineFiles fs i g x f noCancel uris).binaryFiles ↔
        (q ∈ (combineFiles fs i g x f noCancel uris).fileUris ∧
          processFile C fs q = .binaryFile)) ∧
    (∀ q, q ∈ (combineFiles fs i g x f noCancel uris).processedPaths ↔
        (q ∈ (combineFiles fs i g x f noCancel uris).fileUris ∧
          ∃ frag sz tks, processFile C fs q = .textFile frag q sz tks)) := by
  subst hC
  refine ⟨?_, ?_, ?_, ?_, ?_, ?_, ?_⟩
  · intro q
    have h := (foldl_collectRoot_spec (mkCfg fs uris i g x f noCancel) (fun k => rfl)
        fs uris ⟨0, [], [], [], []⟩ (stinv_empty _)).1 q
    simp only [List.not_mem_nil, false_or] at h
    exact h
  · intro q
    have h := (foldl_collectRoot_spec (mkCfg fs uris i g x f noCancel) (fun k => rfl)
        fs uris ⟨0, [], [], [], []⟩ (stinv_empty _)).2.1 q
    simp only [List.not_mem_nil, false_or] at h
    exact h
  · intro k
    have h := (foldl_collectRoot_spec (mkCfg fs uris i g x f noCancel) (fun k => rfl)
        fs uris ⟨0, [], [], [], []⟩ (stinv_empty _)).2.2.1 k
    simp only [List.map_nil, List.not_mem_nil, false_or] at h
    exact h
  · intro pr hpr
    have h := (foldl_collectRoot_spec (mkCfg fs uris i g x f noCancel) (fun k => rfl)
        fs uris ⟨0, [], [], [], []⟩ (stinv_empty _)).2.2.2 pr hpr
    rcases h with h | h
    · exact absurd h (by simp)
    · exact h
  · intro hwf pr hpr
    exact foldl_collectRoot_coherent (mkCfg fs uris i g x f noCancel) (fun k => rfl)
      fs hwf uris pr hpr
  · intro q
    have h := (processLoop_mem (mkCfg fs uris i g x f noCancel) (fun k => rfl) fs
        (uris.foldl (fun s r => collectRoot (mkCfg fs uris i g x f noCancel) fs r s)
          (⟨0, [], [], [], []⟩ : CollectSt)).fileUris
        ⟨(uris.foldl (fun s r => collectRoot (mkCfg fs uris i g x f noCancel) fs r s)
          (⟨0, [], [], [], []⟩ : CollectSt)).cnt, [], [], "", 0, 0, 0, false⟩).1 q
    simp only [List.not_mem_nil, false_or] at h
    exact h
  · intro q
    have h := (processLoop_mem (mkCfg fs uris i g x f noCancel) (fun k => rfl) fs
        (uris.foldl (fun s r => collectRoot (mkCfg fs uris i g x f noCancel) fs r s)
          (⟨0, [], [], [], []⟩ : CollectSt)).fileUris
        ⟨(uris.foldl (fun s r => collectRoot (mkCfg fs uris i g x f noCancel) fs r s)
          (⟨0, [], [], [], []⟩ : CollectSt)).cnt, [], [], "", 0, 0, 0, false⟩).2 q
    simp only [List.not_mem_nil, false_or] at h
    exact h

/-- C6: on an unchanged well-formed tree (distinct sibling names) and with no
cancellation, permuting the order of the selected roots leaves every result
set of the run unchanged as a set: the collected file URIs, the globally
excluded paths, the ignored path–directory pairs, the binary files and the
processed paths (only display order may differ).  The per-directory compiled
matchers depend only on the ignore files physically present on the ancestor
chains, so every per-path verdict is independent of traversal history. -/
theorem run_perm_invariant (fs : FSNode) (i : List String → String → Bool)
    (g : String → Bool) (x : String → String → Bool) (f : Nat → String)
    (uris uris' : List Path) (hwf : wfNode fs = true) (hperm : uris.Perm uris') :
    (∀ q, q ∈ (combineFiles fs i g x f noCancel uris).fileUris ↔
        q ∈ (combineFiles fs i g x f noCancel uris').fileUris) ∧
    (∀ q, q ∈ (combineFiles fs i g x f noCancel uris).excludedFiles ↔
        q ∈ (combineFiles fs i g x f noCancel uris').excludedFiles) ∧
    (∀ pr, pr ∈ (combineFiles fs i g x f noCancel uris).ignoredFiles ↔
        pr ∈ (combineFiles fs i g x f noCancel uris').ignoredFiles) ∧
    (∀ q, q ∈ (combineFiles fs i g x f noCancel uris).binaryFiles ↔
        q ∈ (combineFiles fs i g x f noCancel uris').binaryFiles) ∧
    (∀ q, q ∈ (combineFiles fs i g x f noCancel uris).processedPaths ↔
        q ∈ (combineFiles fs i g x f noCancel uris').processedPaths) := by
  have hCeq : mkCfg fs uris i g x f noCancel = mkCfg fs uris' i g x f noCancel :=
    mkCfg_perm fs i g x f noCancel hperm
  obtain ⟨h1, h2, h3, _, h5, h6, h7⟩ :=
    combineFiles_mem_char fs i g x f uris (mkCfg fs uris i g x f noCancel) rfl
  obtain ⟨h1', h2', h3', _, h5', h6', h7'⟩ :=
    combineFiles_mem_char fs i g x f uris' (mkCfg fs uris i g x f noCancel) hCeq
  have hfiles : ∀ q, q ∈ (combineFiles fs i g x f noCancel uris).fileUris ↔
      q ∈ (combineFiles fs i g x f noCancel uris').fileUris := by
    intro q
    rw [h1 q, h1' q]
    exact exists_mem_perm hperm _
  refine ⟨hfiles, ?_, ?_, ?_, ?_⟩
  · intro q
    rw [h2 q, h2' q]
    exact exists_mem_perm hperm _
  · intro pr
    constructor
    · intro hpr
      have hco := h5 hwf pr hpr
      have hkey : pr.1 ∈ (combineFiles fs i g x f noCancel uris).ignoredFiles.map
          Prod.fst := List.mem_map_of_mem _ hpr
      rw [h3 pr.1] at hkey
      have hkey' : pr.1 ∈ (combineFiles fs i g x f noCancel uris').ignoredFiles.map
          Prod.fst := by
        rw [h3' pr.1]
        exact (exists_mem_perm hperm _).1 hkey
      rw [List.mem_map] at hkey'
      obtain ⟨pr2, hpr2, hfst⟩ := hkey'
      have hco' := h5' hwf pr2 hpr2
      rw [hfst, hco] at hco'
      injection hco' with h2nd
      have hpe : pr2 = pr := Prod.ext_iff.2 ⟨hfst, h2nd.symm⟩
      rw [← hpe]
      exact hpr2
    · intro hpr
      have hco := h5' hwf pr hpr
      have hkey : pr.1 ∈ (combineFiles fs i g x f noCancel uris').ignoredFiles.map
          Prod.fst := List.mem_map_of_mem _ hpr
      rw [h3' pr.1] at hkey
      have hkey' : pr.1 ∈ (combineFiles fs i g x f noCancel uris).ignoredFiles.map
          Prod.fst := by
        rw [h3 pr.1]
        exact (exists_mem_perm hperm _).2 hkey
      rw [List.mem_map] at hkey'
      obtain ⟨pr2, hpr2, hfst⟩ := hkey'
      have hco' := h5 hwf pr2 hpr2
      rw [hfst, hco] at hco'
      injection hco' with h2nd
      have hpe : pr2 = pr := Prod.ext_iff.2 ⟨hfst, h2nd.symm⟩
      rw [← hpe]
      exact hpr2
  · intro q
    rw [h6 q, h6' q, hfiles q]
  · intro q
    rw [h7 q, h7' q, hfiles q]

theorem run_perm_invariant_witness :
    wfNode fsW = true ∧ ([[], ["a.txt"]] : List Path).Perm [["a.txt"], []] ∧
    (∀ q, q ∈ (combineFiles fsW ignMem gexPng isTextAll fmtNone noCancel
        [[], ["a.txt"]]).fileUris ↔
      q ∈ (combineFiles fsW ignMem gexPng isTextAll fmtNone noCancel
        [["a.txt"], []]).fileUris) :=
  ⟨by decide, List.Perm.swap _ _ _,
    (run_perm_invariant fsW ignMem gexPng isTextAll fmtNone [[], ["a.txt"]]
      [["a.txt"], []] (by decide) (List.Perm.swap _ _ _)).1⟩

end FileCombine
